import Mathlib

/-!
# The output directory resolver

A verification development for `internal/outputdir/outputdir.go`:

```
func GetOutputsDir() (string, error) {
	dir := os.Getenv(EnvVarName)
	if dir == "" {
		dir = DefaultOutputsDir
	}
	dir = filepath.Clean(dir)
	if err := os.MkdirAll(dir, 0o755); err != nil {
		return "", err
	}
	return dir, nil
}
```

The function reads the process environment and changes the filesystem, so it is
embedded as a function from a `World` (environment, working directory, umask, free
inodes, filesystem entries) to a `Result` holding the two return values and the world
afterwards.  The library functions it calls are embedded with it:

* `filepath.Clean` (Unix): the loop of the Go library over its lazy buffer;
* `os.MkdirAll`: the recursion of the Go library over `Stat`, `Mkdir` and `Lstat`;
* `stat(2)` and `mkdir(2)`: a model of the path walk over directories and plain files,
  with search and write permission and a bound on the inodes left.

Go strings are read as lists of characters; the separator `/` and the dot are single
bytes that occur in no multi-byte character, so nothing here depends on the difference
between bytes and characters.  Symbolic links are not part of the model, and neither
are the limits of the operating system on the length of a name or of a path.
-/

namespace outputdir

/-! ## `path/filepath.Clean` -/

/-- The loop `for ; r < n && !IsPathSeparator(path[r]); r++ { out.append(path[r]) }` of
`Clean`: copy one path element.  The first list is `path[r:]`, the second the buffer;
the result is the input left and the buffer. -/
def copyElem : List Char → List Char → List Char × List Char
  | [], out => ([], out)
  | c :: rest, out => if c = '/' then (c :: rest, out) else copyElem rest (out ++ [c])

/-- The loop `for out.w > dotdot && !IsPathSeparator(out.index(out.w)) { out.w-- }` of
`Clean`, entered after `out.w--`: the argument is `out.w`, the result the value of
`out.w` when the loop ends.  `out` is the buffer before the decrement, so that
`out.index(out.w)` is `out[out.w]`. -/
def backtrack (out : List Char) (dotdot : Nat) : Nat → Nat
  | 0 => 0
  | w + 1 => if dotdot < w + 1 ∧ out.getD (w + 1) '/' ≠ '/' then backtrack out dotdot w else w + 1

/-- The main loop `for r < n { switch { ... } }` of `Clean`.  The second list is
`path[r:]`, `out` the buffer `buf[:w]`, `dotdot` the index where `..` must stop.  Each
round takes at least one byte of the input, so a fuel of `len(path)` is never used
up (`cleanLoop_spec` holds for every fuel from the length of the input on). -/
def cleanLoop (rooted : Bool) : Nat → List Char → List Char → Nat → List Char
  | 0, _, out, _ => out
  | _ + 1, [], out, _ => out
  | fuel + 1, c :: tl, out, dotdot =>
    if c = '/' then cleanLoop rooted fuel tl out dotdot
    else if c = '.' ∧ (tl = [] ∨ tl.head? = some '/') then cleanLoop rooted fuel tl out dotdot
    else if c = '.' ∧ tl.head? = some '.' ∧ (tl.tail = [] ∨ tl.tail.head? = some '/') then
      if dotdot < out.length then
        cleanLoop rooted fuel tl.tail (out.take (backtrack out dotdot (out.length - 1))) dotdot
      else if rooted = false then
        let out1 := if 0 < out.length then out ++ ['/'] else out
        let out2 := out1 ++ ['.', '.']
        cleanLoop rooted fuel tl.tail out2 out2.length
      else cleanLoop rooted fuel tl.tail out dotdot
    else
      let out1 := if (rooted = true ∧ out.length ≠ 1) ∨ (rooted = false ∧ out.length ≠ 0)
        then out ++ ['/'] else out
      let r := copyElem (c :: tl) out1
      cleanLoop rooted fuel r.1 r.2 dotdot

/-- The body of `filepath.Clean` on the bytes of the path (Unix: no volume name,
`FromSlash` is the identity). -/
def cleanChars (path : List Char) : List Char :=
  if path = [] then ['.'] else
  let rooted : Bool := path.head? = some '/'
  let out := cleanLoop rooted path.length (if rooted then path.tail else path)
    (if rooted then ['/'] else []) (if rooted then 1 else 0)
  if out.length = 0 then ['.'] else out

/-- `filepath.Clean`. -/
def Clean (path : String) : String := String.mk (cleanChars path.data)

/-- `filepath.IsAbs` (Unix): the path starts with the separator.  It is the value of
`rooted` in `Clean`. -/
def IsAbs (path : List Char) : Bool := path.head? = some '/'

/-! ## The filesystem -/

/-- The error numbers the model of the system calls returns. -/
inductive Errno
  | ENOENT | ENOTDIR | EACCES | EEXIST | ENOSPC
deriving DecidableEq

/-- Go's `*fs.PathError`: the operation, the path it was called with, the error. -/
structure PathError where
  Op : String
  Path : String
  Err : Errno
deriving DecidableEq

/-- An entry of the filesystem: a plain file, or a directory with the search and write
permission the calling process has on it. -/
inductive Node
  | file
  | dir (search write : Bool)
deriving DecidableEq

/-- The state `GetOutputsDir` runs in.  An entry is keyed by its absolute location, the
list of names from the root (the root is `[]`); `free` bounds the directories that can
still be made. -/
structure World where
  env : List (String × String)
  cwd : List (List Char)
  umask : Nat
  free : Nat
  nodes : List (List (List Char) × Node)
deriving DecidableEq

def findNode : List (List (List Char) × Node) → List (List Char) → Option Node
  | [], _ => none
  | (k, n) :: rest, key => if k = key then some n else findNode rest key

/-- The entry at an absolute location, if there is one. -/
def World.node (w : World) (key : List (List Char)) : Option Node := findNode w.nodes key

/-- Go's `FileInfo.IsDir`. -/
def Node.IsDir : Node → Bool
  | .file => false
  | .dir _ _ => true

/-- There is a directory at the location `key`. -/
def World.isDir (w : World) (key : List (List Char)) : Bool :=
  match w.node key with
  | some n => n.IsDir
  | none => false

/-- Every entry other than the root lies in a directory. -/
def WellFormed (w : World) : Bool :=
  w.nodes.all (fun e => decide (e.1 = []) || w.isDir e.1.dropLast)

/-- The components of a path, cut at every separator (empty ones included). -/
def splitPath : List Char → List (List Char)
  | [] => [[]]
  | c :: cs =>
    if c = '/' then [] :: splitPath cs
    else match splitPath cs with
      | [] => [[c]]
      | s :: ss => (c :: s) :: ss

/-- The components a path walk looks up: the non-empty ones. -/
def segs (path : List Char) : List (List Char) := (splitPath path).filter (fun s => s ≠ [])

/-- One step of a path walk on locations: `.` stays, `..` goes to the parent (the root
is its own parent), a name goes down. -/
def move (key : List (List Char)) (name : List Char) : List (List Char) :=
  if name = ['.'] then key
  else if name = ['.', '.'] then key.dropLast
  else key ++ [name]

/-- The lexical location of a path: the walk from the root, or from the working
directory `cwd` for a relative path, without looking at the filesystem. -/
def locate (cwd : List (List Char)) (path : List Char) : List (List Char) :=
  (segs path).foldl move (if IsAbs path then [] else cwd)

/-- Look one component up from the location `cur`, which must be a searchable
directory. -/
def walkStep (w : World) (cur : List (List Char)) (name : List Char) :
    Except Errno (List (List Char)) :=
  match w.node cur with
  | none => .error .ENOENT
  | some .file => .error .ENOTDIR
  | some (.dir search _) => if search then .ok (move cur name) else .error .EACCES

def walk (w : World) : List (List Char) → List (List Char) → Except Errno (List (List Char))
  | cur, [] => .ok cur
  | cur, name :: names =>
    match walkStep w cur name with
    | .error e => .error e
    | .ok next => walk w next names

/-- The system call `stat` (and `lstat`: there are no symbolic links): walk the
components, then read the entry reached; a plain file named with a trailing separator
is refused. -/
def sysStat (w : World) (path : List Char) : Except Errno Node :=
  if path = [] then .error .ENOENT else
  match walk w (if IsAbs path then [] else w.cwd) (segs path) with
  | .error e => .error e
  | .ok key =>
    match w.node key with
    | none => .error .ENOENT
    | some .file => if path.getLast? = some '/' then .error .ENOTDIR else .ok .file
    | some (.dir s wr) => .ok (.dir s wr)

/-- The access the calling process has to a directory it makes with mode `perm` under
`umask`: the owner's search bit `0o100` and write bit `0o200`. -/
def newDir (perm umask : Nat) : Node :=
  .dir (perm.testBit 6 && !umask.testBit 6) (perm.testBit 7 && !umask.testBit 7)

/-- The system call `mkdir`: walk to the parent of the last component, which must be a
searchable directory; the last component must be a name with no entry yet; the parent
must be writable and an inode must be left.  Then one directory is added.  The limit
of the operating system on the length of a name is not modelled. -/
def sysMkdir (w : World) (path : List Char) (perm : Nat) : Except Errno World :=
  if path = [] then .error .ENOENT else
  match (segs path).getLast? with
  | none => .error .EEXIST
  | some last =>
    match walk w (if IsAbs path then [] else w.cwd) (segs path).dropLast with
    | .error e => .error e
    | .ok parent =>
      match w.node parent with
      | none => .error .ENOENT
      | some .file => .error .ENOTDIR
      | some (.dir search write) =>
        if search = false then .error .EACCES
        else if last = ['.'] ∨ last = ['.', '.'] then .error .EEXIST
        else if (w.node (parent ++ [last])).isSome then .error .EEXIST
        else if write = false then .error .EACCES
        else if w.free = 0 then .error .ENOSPC
        else .ok { w with free := w.free - 1,
                          nodes := (parent ++ [last], newDir perm w.umask) :: w.nodes }

/-! ## `os.Stat`, `os.Lstat`, `os.Mkdir`, `os.MkdirAll`, `os.Getenv` -/

/-- `os.Stat`: the system call, its error wrapped in a `PathError`. -/
def Stat (w : World) (name : List Char) : Except PathError Node :=
  match sysStat w name with
  | .error e => .error ⟨"stat", String.mk name, e⟩
  | .ok fi => .ok fi

/-- `os.Lstat`. -/
def Lstat (w : World) (name : List Char) : Except PathError Node :=
  match sysStat w name with
  | .error e => .error ⟨"lstat", String.mk name, e⟩
  | .ok fi => .ok fi

/-- `os.Mkdir`. -/
def Mkdir (w : World) (name : List Char) (perm : Nat) : Except PathError World :=
  match sysMkdir w name perm with
  | .error e => .error ⟨"mkdir", String.mk name, e⟩
  | .ok w1 => .ok w1

/-- The parent that `os.MkdirAll` calls itself on: the index runs back from the end
over the trailing separators, then over the last element, and stops on the separator
before that element; the parent is the path before that separator (`path[:j-1]` in the
loop), and the empty string when no separator is found. -/
def parentDir (path : List Char) : List Char :=
  (((path.reverse.dropWhile (fun c => c = '/')).dropWhile (fun c => c ≠ '/')).drop 1).reverse

/-- The body of `os.MkdirAll`, which calls itself on the parent when there is one
(`j > 1` in the loop: the parent is not empty).  The parent is shorter than the path, so
a fuel above the length of the path is never used up (`mkdirAllLoop_fuel`). -/
def mkdirAllLoop : Nat → World → List Char → Nat → Option PathError × World
  | 0, w, path, _ => (some ⟨"mkdir", String.mk path, .ENOENT⟩, w)
  | fuel + 1, w, path, perm =>
    match Stat w path with
    | .ok dir =>
      if dir.IsDir then (none, w)
      else (some ⟨"mkdir", String.mk path, .ENOTDIR⟩, w)
    | .error _ =>
      let parent := parentDir path
      let r := if 0 < parent.length then mkdirAllLoop fuel w parent perm else (none, w)
      match r with
      | (some err, w1) => (some err, w1)
      | (none, w1) =>
        match Mkdir w1 path perm with
        | .ok w2 => (none, w2)
        | .error err =>
          match Lstat w1 path with
          | .ok dir => if dir.IsDir then (none, w1) else (some err, w1)
          | .error _ => (some err, w1)

/-- `os.MkdirAll`: the error (`none` for `nil`) and the world afterwards. -/
def MkdirAll (w : World) (path : String) (perm : Nat) : Option PathError × World :=
  mkdirAllLoop (path.data.length + 1) w path.data perm

/-- `os.LookupEnv`: the value of the first entry of the environment under the key. -/
def LookupEnv (w : World) (key : String) : Option String :=
  match w.env.find? (fun kv => kv.1 = key) with
  | some kv => some kv.2
  | none => none

/-- `os.Getenv`: the value, or the empty string when the variable is not set. -/
def Getenv (w : World) (key : String) : String :=
  match LookupEnv w key with
  | some v => v
  | none => ""

/-! ## `outputdir.go` -/

def EnvVarName : String := "OUTPUT_DIR"

def DefaultOutputsDir : String := "./outputs"

/-- The values `GetOutputsDir` returns (`err = none` for `nil`), and the world it
leaves. -/
structure Result where
  dir : String
  err : Option PathError
  world : World
deriving DecidableEq

/-- `GetOutputsDir`, line by line. -/
def GetOutputsDir (w : World) : Result :=
  let dir := Getenv w EnvVarName
  let dir := if dir = "" then DefaultOutputsDir else dir
  let dir := Clean dir
  match MkdirAll w dir 0o755 with
  | (some err, w1) => ⟨"", some err, w1⟩
  | (none, w1) => ⟨dir, none, w1⟩

/-- The value of `dir` before line 24: the override, or the default. -/
def rawDir (w : World) : String :=
  if Getenv w EnvVarName = "" then DefaultOutputsDir else Getenv w EnvVarName

/-- The value of `dir` after line 24: the path `GetOutputsDir` asks `MkdirAll` for. -/
def resolvedDir (w : World) : String := Clean (rawDir w)

/-! ## Example worlds -/

/-- An empty directory `/t` as working directory, `OUTPUT_DIR` unset. -/
def tmpWorld : World :=
  { env := [], cwd := [['t']], umask := 0o22, free := 8,
    nodes := [([], .dir true true), ([['t']], .dir true true)] }

/-- The same with `OUTPUT_DIR` set to `v`. -/
def overrideWorld (v : String) : World := { tmpWorld with env := [("OUTPUT_DIR", v)] }

/-- The override `a/b` with a plain file `a` in the working directory. -/
def collideWorld : World :=
  { tmpWorld with env := [("OUTPUT_DIR", "a/b")],
                  nodes := ([['t'], ['a']], .file) :: tmpWorld.nodes }

/-! ## Definitions for the proofs -/

/-- The components of a path joined again with single separators. -/
def joinSegs : List (List Char) → List Char
  | [] => []
  | [s] => s
  | s :: t :: ss => s ++ '/' :: joinSegs (t :: ss)

/-- What `Clean` keeps of a path, read component by component: the state is the count
of leading `..` components and the names after them. -/
def normStep (isRooted : Bool) (st : Nat × List (List Char)) (s : List Char) :
    Nat × List (List Char) :=
  if s = ['.'] then st
  else if s = ['.', '.'] then
    if st.2 ≠ [] then (st.1, st.2.dropLast)
    else if isRooted = false then (st.1 + 1, [])
    else st
  else (st.1, st.2 ++ [s])

def stSegs (st : Nat × List (List Char)) : List (List Char) :=
  List.replicate st.1 ['.', '.'] ++ st.2

def rootPrefix (isRooted : Bool) : List Char := if isRooted then ['/'] else []

/-- The buffer of `Clean` for a state of kept components. -/
def render (isRooted : Bool) (st : Nat × List (List Char)) : List Char :=
  rootPrefix isRooted ++ joinSegs (stSegs st)

/-- The value of `dotdot` in `Clean` for a state of kept components. -/
def ddIndex (isRooted : Bool) (st : Nat × List (List Char)) : Nat :=
  (rootPrefix isRooted ++ joinSegs (List.replicate st.1 ['.', '.'])).length

/-- A component that names an entry: not empty, without separator, neither `.` nor
`..`. -/
def IsName (s : List Char) : Prop :=
  s ≠ [] ∧ (∀ c ∈ s, c ≠ '/') ∧ s ≠ ['.'] ∧ s ≠ ['.', '.']

/-- The invariant of the loop of `Clean` on the kept components. -/
def StOk (isRooted : Bool) (st : Nat × List (List Char)) : Prop :=
  (isRooted = true → st.1 = 0) ∧ ∀ s ∈ st.2, IsName s

/-- The components `Clean` keeps of a path. -/
def normSegs (path : List Char) : Nat × List (List Char) :=
  (segs path).foldl (normStep (IsAbs path)) (0, [])

/-- The world `w1` has every entry of `w` unchanged, and the same working directory,
environment and umask: entries were added, nothing else. -/
def Extends (w w1 : World) : Prop :=
  w1.cwd = w.cwd ∧ w1.env = w.env ∧ w1.umask = w.umask ∧
    ∀ key n, w.node key = some n → w1.node key = some n

/-- The error `e` of `MkdirAll` on `path` says where making the directories failed in
the world `w`: it is a `mkdir` error, its path is `path` or `path` cut before one of its
separators, and at that path either a plain file is in the way (`ENOTDIR`) or `mkdir`
failed with the error number of `e` and there is no directory. -/
def FailedAt (perm : Nat) (w : World) (path : List Char) (e : PathError) : Prop :=
  e.Op = "mkdir" ∧
  (∃ rest, path = e.Path.data ++ rest ∧ (rest = [] ∨ rest.head? = some '/')) ∧
  ((sysStat w e.Path.data = .ok .file ∧ e.Err = .ENOTDIR) ∨
    (sysMkdir w e.Path.data perm = .error e.Err ∧
      ∀ s wr, sysStat w e.Path.data ≠ .ok (.dir s wr)))

/-- The world `w1` comes from `w` by successful `mkdir` calls, each on a path with the
root of `path` and leading components of `path`. -/
inductive Made (perm : Nat) (path : List Char) : World → World → Prop
  | refl (w : World) : Made perm path w w
  | step (w w1 w2 : World) (q : List Char) : Made perm path w w1 →
      (q ≠ [] → IsAbs q = IsAbs path) → segs q <+: segs path →
      sysMkdir w1 q perm = .ok w2 → Made perm path w w2


/-! ## Theorems -/

/-! ### Splitting a path into components -/

theorem splitPath_ne_nil (p : List Char) : splitPath p ≠ [] := by
  induction p with
  | nil => simp [splitPath]
  | cons c cs ih =>
    unfold splitPath
    split
    · simp
    · split
      · simp
      · simp

theorem splitPath_cons (c : Char) (cs : List Char) :
    splitPath (c :: cs) =
      if c = '/' then [] :: splitPath cs
      else match splitPath cs with
        | [] => [[c]]
        | s :: ss => (c :: s) :: ss := by
  rw [splitPath]

theorem splitPath_append_sep (a b : List Char) :
    splitPath (a ++ '/' :: b) = splitPath a ++ splitPath b := by
  induction a with
  | nil => simp [splitPath]
  | cons c cs ih =>
    rw [List.cons_append, splitPath_cons, splitPath_cons, ih]
    by_cases hc : c = '/'
    · simp [hc]
    · simp only [hc, if_false]
      cases h : splitPath cs with
      | nil => exact absurd h (splitPath_ne_nil cs)
      | cons s ss => simp

theorem splitPath_noSep (e : List Char) (h : ∀ c ∈ e, c ≠ '/') : splitPath e = [e] := by
  induction e with
  | nil => simp [splitPath]
  | cons c cs ih =>
    have hc : c ≠ '/' := h c (by simp)
    have := ih (fun x hx => h x (by simp [hx]))
    simp [splitPath, hc, this]

theorem splitPath_elem_sep (e b : List Char) (h : ∀ c ∈ e, c ≠ '/') :
    splitPath (e ++ '/' :: b) = e :: splitPath b := by
  rw [splitPath_append_sep, splitPath_noSep e h]; rfl

theorem segs_nil : segs [] = [] := by simp [segs, splitPath]

theorem segs_sep (b : List Char) : segs ('/' :: b) = segs b := by
  simp [segs, splitPath]

theorem segs_append_sep (a b : List Char) : segs (a ++ '/' :: b) = segs a ++ segs b := by
  simp [segs, splitPath_append_sep]

theorem segs_elem (e r : List Char) (h : ∀ c ∈ e, c ≠ '/') (he : e ≠ [])
    (hr : r = [] ∨ r.head? = some '/') : segs (e ++ r) = e :: segs r := by
  rcases hr with rfl | hr
  · rw [List.append_nil, segs_nil]
    simp [segs, splitPath_noSep e h, he]
  · cases r with
    | nil => simp at hr
    | cons c r' =>
      simp at hr; subst hr
      rw [segs_append_sep, segs_sep]
      simp [segs, splitPath_noSep e h, he]

theorem segs_nonempty (p s : List Char) (h : s ∈ segs p) : s ≠ [] := by
  simp [segs] at h; exact h.2

theorem copyElem_eq (rest out : List Char) :
    copyElem rest out =
      (rest.dropWhile (fun c => c ≠ '/'), out ++ rest.takeWhile (fun c => c ≠ '/')) := by
  induction rest generalizing out with
  | nil => simp [copyElem]
  | cons c cs ih =>
    unfold copyElem
    by_cases hc : c = '/'
    · simp [hc]
    · simp [hc, ih]


/-! ### Segment-level description of `Clean` -/

theorem joinSegs_snoc (l : List (List Char)) (s : List Char) (hl : l ≠ []) :
    joinSegs (l ++ [s]) = joinSegs l ++ '/' :: s := by
  induction l with
  | nil => exact absurd rfl hl
  | cons a t ih =>
    cases t with
    | nil => simp [joinSegs]
    | cons b u =>
      have := ih (by simp)
      simp only [List.cons_append] at this ⊢
      simp [joinSegs, this]

theorem joinSegs_single (s : List Char) : joinSegs [s] = s := rfl

theorem joinSegs_length_le (l m : List (List Char)) :
    (joinSegs l).length ≤ (joinSegs (l ++ m)).length := by
  induction m using List.reverseRecOn with
  | nil => simp
  | append_singleton m s ih =>
    rw [← List.append_assoc]
    by_cases h : l ++ m = []
    · have hl : l = [] := (List.append_eq_nil.mp h).1
      subst hl; simp [joinSegs]
    · rw [joinSegs_snoc _ _ h]
      simp only [List.length_append, List.length_cons]
      omega

theorem joinSegs_eq_nil (l : List (List Char)) (hl : l ≠ []) (hne : ∀ s ∈ l, s ≠ []) :
    joinSegs l ≠ [] := by
  cases l with
  | nil => exact absurd rfl hl
  | cons a t =>
    cases t with
    | nil => simpa [joinSegs] using hne a (by simp)
    | cons b u =>
      have := hne a (by simp)
      simp [joinSegs, this]

/-! ### The backtracking loop -/

theorem backtrack_eq (out : List Char) (dd m : Nat) :
    ∀ w, m ≤ w →
      (∀ i, m < i → i ≤ w → dd < i ∧ out.getD i '/' ≠ '/') →
      (m = 0 ∨ ¬ (dd < m ∧ out.getD m '/' ≠ '/')) →
      backtrack out dd w = m := by
  intro w
  induction w with
  | zero => intro h _ _; simp [backtrack]; omega
  | succ w ih =>
    intro hm hrun hstop
    rw [backtrack]
    by_cases hmw : m = w + 1
    · subst hmw
      rcases hstop with h0 | hstop
      · omega
      · rw [if_neg hstop]
    · have hle : m ≤ w := by omega
      rw [if_pos (hrun (w + 1) (by omega) (le_refl _))]
      exact ih hle (fun i h1 h2 => hrun i h1 (by omega)) hstop

theorem getD_append_name (a n : List Char) (hn : ∀ c ∈ n, c ≠ '/') (i : Nat)
    (h1 : a.length ≤ i) (h2 : i < a.length + n.length) : (a ++ n).getD i '/' ≠ '/' := by
  rw [List.getD_eq_getElem?_getD, List.getElem?_append_right h1]
  have hlt : i - a.length < n.length := by omega
  rw [List.getElem?_eq_getElem hlt]
  simp only [Option.getD_some]
  exact hn _ (List.getElem_mem _)

theorem backtrack_first (a n : List Char) (hn : ∀ c ∈ n, c ≠ '/') (hne : n ≠ []) :
    (a ++ n).take (backtrack (a ++ n) a.length ((a ++ n).length - 1)) = a := by
  have hlen : 0 < n.length := List.length_pos.mpr hne
  have : backtrack (a ++ n) a.length ((a ++ n).length - 1) = a.length := by
    apply backtrack_eq
    · simp; omega
    · intro i h1 h2
      refine ⟨h1, getD_append_name a n hn i (by omega) ?_⟩
      simp at h2; omega
    · right; omega
  rw [this]; simp

theorem backtrack_later (a n : List Char) (dd : Nat) (hdd : dd ≤ a.length)
    (hn : ∀ c ∈ n, c ≠ '/') :
    (a ++ '/' :: n).take (backtrack (a ++ '/' :: n) dd ((a ++ '/' :: n).length - 1)) = a := by
  have : backtrack (a ++ '/' :: n) dd ((a ++ '/' :: n).length - 1) = a.length := by
    apply backtrack_eq
    · simp
    · intro i h1 h2
      refine ⟨by omega, ?_⟩
      have e : a ++ '/' :: n = (a ++ ['/']) ++ n := by simp
      rw [e]
      apply getD_append_name _ n hn
      · simp; omega
      · simp at h2 ⊢; omega
    · right
      intro h
      apply h.2
      rw [List.getD_eq_getElem?_getD, List.getElem?_append_right (le_refl _)]
      simp
  rw [this]; simp


/-! ### The loop of `Clean` computes the segment-level normal form -/

theorem splitPath_noSep_mem (p s : List Char) (h : s ∈ splitPath p) : ∀ c ∈ s, c ≠ '/' := by
  induction p generalizing s with
  | nil => simp [splitPath] at h; subst h; simp
  | cons c cs ih =>
    rw [splitPath_cons] at h
    by_cases hc : c = '/'
    · simp only [hc, if_true, List.mem_cons] at h
      rcases h with rfl | h
      · simp
      · exact ih s h
    · simp only [hc, if_false] at h
      cases hs : splitPath cs with
      | nil => exact absurd hs (splitPath_ne_nil cs)
      | cons a t =>
        rw [hs] at h
        simp only [List.mem_cons] at h
        rcases h with rfl | h
        · intro x hx
          simp only [List.mem_cons] at hx
          rcases hx with rfl | hx
          · exact hc
          · exact ih a (by simp [hs]) x hx
        · exact ih s (by simp [hs, h])

theorem segs_noSep (p s : List Char) (h : s ∈ segs p) : ∀ c ∈ s, c ≠ '/' := by
  simp [segs] at h
  exact splitPath_noSep_mem p s h.1

theorem takeWhile_eq_nil_sep (l : List Char)
    (h : l.takeWhile (fun c => c ≠ '/') = []) : l = [] ∨ l.head? = some '/' := by
  cases l with
  | nil => left; rfl
  | cons a t =>
    right
    by_cases ha : a = '/'
    · simp [ha]
    · simp [List.takeWhile, ha] at h

theorem dropWhile_sep_head (l : List Char) :
    l.dropWhile (fun c => c ≠ '/') = [] ∨ (l.dropWhile (fun c => c ≠ '/')).head? = some '/' := by
  induction l with
  | nil => left; rfl
  | cons a t ih =>
    by_cases ha : a = '/'
    · right; simp [List.dropWhile, ha]
    · simpa [List.dropWhile, ha] using ih

theorem takeWhile_noSep (l : List Char) : ∀ c ∈ l.takeWhile (fun c => c ≠ '/'), c ≠ '/' := by
  intro c hc
  have := List.mem_takeWhile_imp hc
  simpa using this

theorem stSegs_nonempty (isRooted : Bool) (st : Nat × List (List Char)) (h : StOk isRooted st) :
    ∀ s ∈ stSegs st, s ≠ [] := by
  intro s hs
  simp only [stSegs, List.mem_append] at hs
  rcases hs with hs | hs
  · have := List.eq_of_mem_replicate hs
    subst this; simp
  · exact (h.2 s hs).1

theorem render_snoc (isRooted : Bool) (u : Nat) (ns : List (List Char)) (n : List Char) :
    render isRooted (u, ns ++ [n]) =
      if stSegs (u, ns) = [] then rootPrefix isRooted ++ n
      else render isRooted (u, ns) ++ '/' :: n := by
  unfold render
  have e : stSegs (u, ns ++ [n]) = stSegs (u, ns) ++ [n] := by simp [stSegs]
  rw [e]
  by_cases h : stSegs (u, ns) = []
  · simp [h, joinSegs]
  · simp [h, joinSegs_snoc _ _ h]

theorem render_length_nil (isRooted : Bool) (u : Nat) :
    (render isRooted (u, [])).length = ddIndex isRooted (u, []) := by
  simp [render, ddIndex, stSegs]

theorem ddIndex_le (isRooted : Bool) (u : Nat) (ns : List (List Char)) :
    ddIndex isRooted (u, ns) ≤ (render isRooted (u, ns)).length := by
  simp only [ddIndex, render, stSegs, List.length_append]
  have := joinSegs_length_le (List.replicate u ['.', '.']) ns
  omega

theorem stSegs_eq_nil (st : Nat × List (List Char)) :
    stSegs st = [] ↔ st.1 = 0 ∧ st.2 = [] := by
  simp [stSegs, List.replicate_eq_nil_iff]

theorem normStep_ok (isRooted : Bool) (st : Nat × List (List Char)) (s : List Char)
    (h : StOk isRooted st) (hne : s ≠ []) (hs : ∀ c ∈ s, c ≠ '/') :
    StOk isRooted (normStep isRooted st s) := by
  unfold normStep
  by_cases h1 : s = ['.']
  · rw [if_pos h1]; exact h
  · rw [if_neg h1]
    by_cases h2 : s = ['.', '.']
    · rw [if_pos h2]
      by_cases h3 : st.2 ≠ []
      · rw [if_pos h3]
        exact ⟨h.1, fun x hx => h.2 x (List.dropLast_subset _ hx)⟩
      · rw [if_neg h3]
        by_cases h4 : isRooted = false
        · rw [if_pos h4]
          exact ⟨fun hr => by simp [h4] at hr, by simp⟩
        · rw [if_neg h4]; exact h
    · rw [if_neg h2]
      refine ⟨h.1, ?_⟩
      intro x hx
      simp only [List.mem_append, List.mem_singleton] at hx
      rcases hx with hx | rfl
      · exact h.2 x hx
      · exact ⟨hne, hs, h1, h2⟩

theorem foldl_normStep_ok (isRooted : Bool) (l : List (List Char)) :
    ∀ st, StOk isRooted st → (∀ s ∈ l, s ≠ [] ∧ ∀ c ∈ s, c ≠ '/') →
      StOk isRooted (l.foldl (normStep isRooted) st) := by
  induction l with
  | nil => intro st h _; simpa using h
  | cons a t ih =>
    intro st h hl
    simp only [List.foldl_cons]
    apply ih
    · exact normStep_ok isRooted st a h (hl a (by simp)).1 (hl a (by simp)).2
    · intro s hs; exact hl s (by simp [hs])


theorem cleanLoop_cons (isRooted : Bool) (fuel : Nat) (c : Char) (tl out : List Char)
    (dotdot : Nat) :
    cleanLoop isRooted (fuel + 1) (c :: tl) out dotdot =
      if c = '/' then cleanLoop isRooted fuel tl out dotdot
      else if c = '.' ∧ (tl = [] ∨ tl.head? = some '/') then
        cleanLoop isRooted fuel tl out dotdot
      else if c = '.' ∧ tl.head? = some '.' ∧ (tl.tail = [] ∨ tl.tail.head? = some '/') then
        if dotdot < out.length then
          cleanLoop isRooted fuel tl.tail
            (out.take (backtrack out dotdot (out.length - 1))) dotdot
        else if isRooted = false then
          cleanLoop isRooted fuel tl.tail
            ((if 0 < out.length then out ++ ['/'] else out) ++ ['.', '.'])
            ((if 0 < out.length then out ++ ['/'] else out) ++ ['.', '.']).length
        else cleanLoop isRooted fuel tl.tail out dotdot
      else
        cleanLoop isRooted fuel
          (copyElem (c :: tl)
            (if (isRooted = true ∧ out.length ≠ 1) ∨ (isRooted = false ∧ out.length ≠ 0)
              then out ++ ['/'] else out)).1
          (copyElem (c :: tl)
            (if (isRooted = true ∧ out.length ≠ 1) ∨ (isRooted = false ∧ out.length ≠ 0)
              then out ++ ['/'] else out)).2 dotdot := by
  rw [cleanLoop]

theorem takeWhile_eq_dot (l : List Char)
    (h : l.takeWhile (fun c => c ≠ '/') = ['.']) :
    l.head? = some '.' ∧ (l.tail = [] ∨ l.tail.head? = some '/') := by
  cases l with
  | nil => simp at h
  | cons a t =>
    by_cases ha : a = '/'
    · simp [List.takeWhile, ha] at h
    · simp only [List.takeWhile, ne_eq, ha, not_false_eq_true, decide_True, List.cons.injEq] at h
      refine ⟨by simp [h.1], ?_⟩
      exact takeWhile_eq_nil_sep t h.2

theorem render_push_dotdot (u : Nat) :
    (if 0 < (render false (u, [])).length then render false (u, []) ++ ['/']
      else render false (u, [])) ++ ['.', '.'] = render false (u + 1, []) := by
  cases u with
  | zero => simp [render, rootPrefix, stSegs, joinSegs]
  | succ k =>
    have hne : List.replicate (k + 1) ['.', '.'] ≠ [] := by simp
    have hlen : 0 < (render false (k + 1, [])).length := by
      have := joinSegs_eq_nil (List.replicate (k + 1) ['.', '.']) hne
        (fun s hs => by rw [List.eq_of_mem_replicate hs]; simp)
      simp only [render, rootPrefix, stSegs, List.append_nil, List.nil_append]
      exact List.length_pos.mpr this
    rw [if_pos hlen]
    simp only [render, rootPrefix, stSegs, List.append_nil, List.nil_append, Bool.false_eq_true,
      if_false]
    rw [List.replicate_succ' (k + 1), joinSegs_snoc _ _ hne]
    simp

theorem sep_cond_iff (isRooted : Bool) (st : Nat × List (List Char)) (h : StOk isRooted st) :
    ((isRooted = true ∧ (render isRooted st).length ≠ 1) ∨
      (isRooted = false ∧ (render isRooted st).length ≠ 0)) ↔ stSegs st ≠ [] := by
  have hj : joinSegs (stSegs st) = [] ↔ stSegs st = [] := by
    constructor
    · intro hj
      by_contra hne
      exact joinSegs_eq_nil _ hne (stSegs_nonempty isRooted st h) hj
    · intro hs; rw [hs]; rfl
  have hl : (joinSegs (stSegs st)).length = 0 ↔ stSegs st = [] := by
    rw [List.length_eq_zero]; exact hj
  cases isRooted with
  | false =>
    simp only [render, rootPrefix, Bool.false_eq_true, if_false, List.nil_append, false_and,
      true_and, false_or, ne_eq]
    rw [hl]
  | true =>
    simp only [render, rootPrefix, if_true, List.length_append, List.length_cons,
      List.length_nil, true_and, Bool.true_eq_false, false_and, or_false, ne_eq]
    rw [← hl]; omega


theorem ddIndex_names (isRooted : Bool) (u : Nat) (ns ms : List (List Char)) :
    ddIndex isRooted (u, ns) = ddIndex isRooted (u, ms) := rfl

theorem cleanLoop_spec (isRooted : Bool) :
    ∀ fuel rest st, rest.length ≤ fuel → StOk isRooted st →
      cleanLoop isRooted fuel rest (render isRooted st) (ddIndex isRooted st) =
        render isRooted ((segs rest).foldl (normStep isRooted) st) := by
  intro fuel
  induction fuel with
  | zero =>
    intro rest st h _
    have : rest = [] := List.length_eq_zero.mp (by omega)
    subst this
    simp [cleanLoop, segs_nil]
  | succ fuel ih =>
    intro rest st hlen hok
    cases rest with
    | nil => simp [cleanLoop, segs_nil]
    | cons c tl =>
      rw [cleanLoop_cons]
      have htl : tl.length ≤ fuel := by simpa using hlen
      by_cases hc : c = '/'
      · rw [if_pos hc, hc, segs_sep]; exact ih tl st htl hok
      · rw [if_neg hc]
        by_cases h1 : c = '.' ∧ (tl = [] ∨ tl.head? = some '/')
        · rw [if_pos h1]
          have hs : segs (c :: tl) = ['.'] :: segs tl := by
            obtain ⟨rfl, h⟩ := h1
            exact segs_elem ['.'] tl (by simp) (by simp) h
          rw [hs, List.foldl_cons]
          have : normStep isRooted st ['.'] = st := by simp [normStep]
          rw [this]; exact ih tl st htl hok
        · rw [if_neg h1]
          by_cases h2 : c = '.' ∧ tl.head? = some '.' ∧
              (tl.tail = [] ∨ tl.tail.head? = some '/')
          · rw [if_pos h2]
            obtain ⟨rfl, h2a, h2b⟩ := h2
            obtain ⟨tl', rfl⟩ : ∃ tl', tl = '.' :: tl' := by
              cases tl with
              | nil => simp at h2a
              | cons a t => simp at h2a; exact ⟨t, by rw [h2a]⟩
            simp only [List.tail_cons] at h2b ⊢
            have hs : segs ('.' :: '.' :: tl') = ['.', '.'] :: segs tl' :=
              segs_elem ['.', '.'] tl' (by simp) (by simp) h2b
            rw [hs, List.foldl_cons]
            have htl' : tl'.length ≤ fuel := by simp at htl; omega
            obtain ⟨u, ns⟩ := st
            rcases List.eq_nil_or_concat ns with rfl | ⟨ns', n, hcat⟩
            · have hlt : ¬ ddIndex isRooted (u, []) < (render isRooted (u, [])).length := by
                rw [render_length_nil]; omega
              rw [if_neg hlt]
              cases isRooted with
              | false =>
                rw [if_pos rfl]
                have hn : normStep false (u, []) ['.', '.'] = (u + 1, []) := by
                  simp [normStep]
                rw [hn, render_push_dotdot, render_length_nil]
                exact ih tl' (u + 1, []) htl' ⟨by simp, by simp⟩
              | true =>
                rw [if_neg (by simp)]
                have hn : normStep true (u, []) ['.', '.'] = (u, []) := by
                  simp [normStep]
                rw [hn]
                exact ih tl' (u, []) htl' hok
            · rw [List.concat_eq_append] at hcat
              subst hcat
              have hnm : IsName n := hok.2 n (by simp)
              have hok' : StOk isRooted (u, ns') :=
                ⟨hok.1, fun s hs => hok.2 s (by simp [hs])⟩
              have hn : normStep isRooted (u, ns' ++ [n]) ['.', '.'] = (u, ns') := by
                simp [normStep]
              rw [hn]
              have hsn := render_snoc isRooted u ns' n
              by_cases hz : stSegs (u, ns') = []
              · rw [if_pos hz] at hsn
                have hr : render isRooted (u, ns') = rootPrefix isRooted := by
                  simp [render, hz, joinSegs]
                have hd : ddIndex isRooted (u, ns' ++ [n]) = (rootPrefix isRooted).length := by
                  rw [ddIndex_names isRooted u (ns' ++ [n]) ns', ← hr]
                  have h0 := (stSegs_eq_nil (u, ns')).mp hz
                  simp only at h0
                  obtain ⟨hu, hns⟩ := h0
                  subst hu; subst hns
                  exact (render_length_nil isRooted 0).symm
                rw [hsn, hd]
                have hlt : (rootPrefix isRooted).length < (rootPrefix isRooted ++ n).length := by
                  have := List.length_pos.mpr hnm.1
                  simp only [List.length_append]; omega
                rw [if_pos hlt, backtrack_first _ n hnm.2.1 hnm.1, ← hd, ← hr,
                  ddIndex_names isRooted u (ns' ++ [n]) ns']
                exact ih tl' (u, ns') htl' hok'
              · rw [if_neg hz] at hsn
                have hdle := ddIndex_le isRooted u ns'
                rw [hsn, ddIndex_names isRooted u (ns' ++ [n]) ns']
                have hlt : ddIndex isRooted (u, ns') <
                    (render isRooted (u, ns') ++ '/' :: n).length := by
                  simp only [List.length_append, List.length_cons]; omega
                rw [if_pos hlt, backtrack_later _ n _ hdle hnm.2.1]
                exact ih tl' (u, ns') htl' hok'
          · rw [if_neg h2]
            rw [copyElem_eq]
            simp only []
            have hsplit : c :: tl = (c :: tl).takeWhile (fun c => c ≠ '/') ++
                (c :: tl).dropWhile (fun c => c ≠ '/') :=
              (List.takeWhile_append_dropWhile _ _).symm
            have hte : (c :: tl).takeWhile (fun c => c ≠ '/') =
                c :: tl.takeWhile (fun c => c ≠ '/') := by
              simp [List.takeWhile, hc]
            have hde : (c :: tl).dropWhile (fun c => c ≠ '/') =
                tl.dropWhile (fun c => c ≠ '/') := by
              simp [List.dropWhile, hc]
            have hens : ∀ x ∈ (c :: tl).takeWhile (fun c => c ≠ '/'), x ≠ '/' :=
              takeWhile_noSep _
            have hene : (c :: tl).takeWhile (fun c => c ≠ '/') ≠ [] := by rw [hte]; simp
            have he1 : (c :: tl).takeWhile (fun c => c ≠ '/') ≠ ['.'] := by
              rw [hte]
              intro h
              simp only [List.cons.injEq] at h
              exact h1 ⟨h.1, takeWhile_eq_nil_sep tl h.2⟩
            have he2 : (c :: tl).takeWhile (fun c => c ≠ '/') ≠ ['.', '.'] := by
              rw [hte]
              intro h
              simp only [List.cons.injEq] at h
              have := takeWhile_eq_dot tl (by rw [h.2])
              exact h2 ⟨h.1, this⟩
            have hs : segs (c :: tl) = (c :: tl).takeWhile (fun c => c ≠ '/') ::
                segs ((c :: tl).dropWhile (fun c => c ≠ '/')) := by
              conv_lhs => rw [hsplit]
              exact segs_elem _ _ hens hene (dropWhile_sep_head _)
            rw [hs, List.foldl_cons]
            generalize (c :: tl).takeWhile (fun c => c ≠ '/') = e at *
            have hn : normStep isRooted st e = (st.1, st.2 ++ [e]) := by
              simp [normStep, he1, he2]
            have hok' : StOk isRooted (st.1, st.2 ++ [e]) := by
              rw [← hn]; exact normStep_ok isRooted st e hok hene hens
            have hout : (if (isRooted = true ∧ (render isRooted st).length ≠ 1) ∨
                (isRooted = false ∧ (render isRooted st).length ≠ 0)
                then render isRooted st ++ ['/'] else render isRooted st) ++ e =
                render isRooted (st.1, st.2 ++ [e]) := by
              rw [render_snoc]
              by_cases hz : stSegs st = []
              · have hz' : stSegs (st.1, st.2) = [] := hz
                rw [if_pos hz', if_neg (by rw [sep_cond_iff isRooted st hok]; simp [hz])]
                simp [render, hz, joinSegs]
              · have hz' : ¬ stSegs (st.1, st.2) = [] := hz
                rw [if_neg hz', if_pos ((sep_cond_iff isRooted st hok).mpr hz)]
                simp [render]
            rw [hout, hn, hde]
            have hlen' : (tl.dropWhile (fun c => c ≠ '/')).length ≤ fuel :=
              le_trans (List.dropWhile_sublist _).length_le htl
            exact ih _ (st.1, st.2 ++ [e]) hlen' hok'


/-! ### Closed form of `Clean` -/

theorem normSegs_ok (path : List Char) : StOk (IsAbs path) (normSegs path) := by
  apply foldl_normStep_ok
  · exact ⟨fun _ => rfl, by simp⟩
  · intro s hs
    exact ⟨segs_nonempty path s hs, segs_noSep path s hs⟩

theorem cleanChars_eq (path : List Char) :
    cleanChars path =
      if render (IsAbs path) (normSegs path) = [] then ['.']
      else render (IsAbs path) (normSegs path) := by
  unfold cleanChars
  by_cases hp : path = []
  · subst hp
    simp [normSegs, segs_nil, render, rootPrefix, IsAbs, stSegs, joinSegs]
  · rw [if_neg hp]
    have key : cleanLoop (decide (path.head? = some '/')) path.length
        (if (decide (path.head? = some '/')) = true then path.tail else path)
        (if (decide (path.head? = some '/')) = true then ['/'] else [])
        (if (decide (path.head? = some '/')) = true then 1 else 0) =
        render (IsAbs path) (normSegs path) := by
      cases path with
      | nil => exact absurd rfl hp
      | cons c tl =>
        by_cases hc : c = '/'
        · subst hc
          have h := cleanLoop_spec true ('/' :: tl).length tl (0, [])
            (by simp) ⟨fun _ => rfl, by simp⟩
          have hr : render true (0, []) = ['/'] := by
            simp [render, rootPrefix, stSegs, joinSegs]
          have hd : ddIndex true (0, []) = 1 := by
            simp [ddIndex, rootPrefix, joinSegs]
          rw [hr, hd] at h
          simpa [normSegs, IsAbs, segs_sep] using h
        · have h := cleanLoop_spec false (c :: tl).length (c :: tl) (0, [])
            (le_refl _) ⟨fun _ => rfl, by simp⟩
          have hr : render false (0, []) = [] := by
            simp [render, rootPrefix, stSegs, joinSegs]
          have hd : ddIndex false (0, []) = 0 := by
            simp [ddIndex, rootPrefix, joinSegs]
          rw [hr, hd] at h
          simpa [normSegs, IsAbs, hc] using h
    simp only [] at key ⊢
    rw [key]
    simp [List.length_eq_zero]


/-! ### Shape of a cleaned path -/

theorem splitPath_joinSegs (l : List (List Char)) (hl : l ≠ [])
    (h : ∀ s ∈ l, ∀ c ∈ s, c ≠ '/') : splitPath (joinSegs l) = l := by
  induction l with
  | nil => exact absurd rfl hl
  | cons a t ih =>
    cases t with
    | nil => simpa [joinSegs] using splitPath_noSep a (h a (by simp))
    | cons b u =>
      have := ih (by simp) (fun s hs => h s (by simp [hs]))
      rw [joinSegs, splitPath_elem_sep a _ (h a (by simp)), this]

theorem stSegs_noSep (isRooted : Bool) (st : Nat × List (List Char)) (h : StOk isRooted st) :
    ∀ s ∈ stSegs st, ∀ c ∈ s, c ≠ '/' := by
  intro s hs
  simp only [stSegs, List.mem_append] at hs
  rcases hs with hs | hs
  · have := List.eq_of_mem_replicate hs
    subst this; simp
  · exact (h.2 s hs).2.1

theorem stSegs_ne_dot (isRooted : Bool) (st : Nat × List (List Char)) (h : StOk isRooted st) :
    ∀ s ∈ stSegs st, s ≠ ['.'] := by
  intro s hs
  simp only [stSegs, List.mem_append] at hs
  rcases hs with hs | hs
  · have := List.eq_of_mem_replicate hs
    subst this; simp
  · exact (h.2 s hs).2.2.1

/-- The cleaned path is `.`, or the root, or the kept components joined by single
separators, after the root separator when the path is rooted. -/
theorem cleanChars_form (path : List Char) :
    (IsAbs path = false ∧ stSegs (normSegs path) = [] ∧ cleanChars path = ['.']) ∨
    (IsAbs path = true ∧ stSegs (normSegs path) = [] ∧ cleanChars path = ['/']) ∨
    (stSegs (normSegs path) ≠ [] ∧
      cleanChars path = rootPrefix (IsAbs path) ++ joinSegs (stSegs (normSegs path))) := by
  rw [cleanChars_eq]
  by_cases hz : stSegs (normSegs path) = []
  · cases hr : IsAbs path with
    | false => left; simp [render, rootPrefix, hz, joinSegs]
    | true => right; left; simp [render, rootPrefix, hz, joinSegs]
  · right; right
    refine ⟨hz, ?_⟩
    have hne := joinSegs_eq_nil _ hz (stSegs_nonempty _ _ (normSegs_ok path))
    have : render (IsAbs path) (normSegs path) ≠ [] := by
      simp [render, hne]
    rw [if_neg this]; rfl

theorem cleanChars_ne_nil (path : List Char) : cleanChars path ≠ [] := by
  rcases cleanChars_form path with ⟨_, _, h⟩ | ⟨_, _, h⟩ | ⟨hz, h⟩
  · simp [h]
  · simp [h]
  · rw [h]
    have hne := joinSegs_eq_nil _ hz (stSegs_nonempty _ _ (normSegs_ok path))
    simp [hne]

theorem joinSegs_head (l : List (List Char)) (hl : l ≠ []) (hne : ∀ s ∈ l, s ≠ [])
    (h : ∀ s ∈ l, ∀ c ∈ s, c ≠ '/') : (joinSegs l).head? ≠ some '/' := by
  cases l with
  | nil => exact absurd rfl hl
  | cons a t =>
    cases a with
    | nil => exact absurd rfl (hne [] (by simp))
    | cons c a' =>
      have hc : c ≠ '/' := h (c :: a') (by simp) c (by simp)
      cases t with
      | nil => simpa [joinSegs] using hc
      | cons b u => simpa [joinSegs] using hc

theorem IsAbs_cleanChars (path : List Char) : IsAbs (cleanChars path) = IsAbs path := by
  rcases cleanChars_form path with ⟨hr, _, h⟩ | ⟨hr, _, h⟩ | ⟨hz, h⟩
  · rw [h, hr]; rfl
  · rw [h, hr]; rfl
  · rw [h]
    cases hr : IsAbs path with
    | true => simp [rootPrefix, IsAbs]
    | false =>
      have := joinSegs_head _ hz (stSegs_nonempty _ _ (normSegs_ok path))
        (stSegs_noSep _ _ (normSegs_ok path))
      simpa [rootPrefix, IsAbs] using this

/-- The components of the cleaned path, as cut at the separators. -/
theorem splitPath_cleanChars (path : List Char) :
    (cleanChars path = ['.'] ∧ splitPath (cleanChars path) = [['.']]) ∨
    (cleanChars path = ['/'] ∧ splitPath (cleanChars path) = [[], []]) ∨
    (stSegs (normSegs path) ≠ [] ∧
      splitPath (cleanChars path) =
        (if IsAbs path then [[]] else []) ++ stSegs (normSegs path)) := by
  rcases cleanChars_form path with ⟨_, _, h⟩ | ⟨_, _, h⟩ | ⟨hz, h⟩
  · left; exact ⟨h, by rw [h]; rfl⟩
  · right; left; exact ⟨h, by rw [h]; decide⟩
  · right; right
    refine ⟨hz, ?_⟩
    have hs := splitPath_joinSegs _ hz (stSegs_noSep _ _ (normSegs_ok path))
    rw [h]
    cases hr : IsAbs path with
    | true => simp [rootPrefix, splitPath_cons, hs]
    | false => simp [rootPrefix, hs]

theorem segs_render (isRooted : Bool) (st : Nat × List (List Char)) (h : StOk isRooted st) :
    segs (render isRooted st) = stSegs st := by
  have hf : (stSegs st).filter (fun s => decide (s ≠ [])) = stSegs st := by
    rw [List.filter_eq_self]
    intro s hs
    simpa using stSegs_nonempty isRooted st h s hs
  have hj : segs (joinSegs (stSegs st)) = stSegs st := by
    by_cases hz : stSegs st = []
    · rw [hz]; simp [joinSegs, segs_nil]
    · rw [segs, splitPath_joinSegs _ hz (stSegs_noSep _ _ h)]; exact hf
  cases isRooted with
  | true => simpa [render, rootPrefix, segs_sep] using hj
  | false => simpa [render, rootPrefix] using hj


/-! ### Lexical location -/

theorem move_dot (k : List (List Char)) : move k ['.'] = k := by simp [move]

theorem move_dotdot (k : List (List Char)) : move k ['.', '.'] = k.dropLast := by
  simp [move]

theorem move_name (k : List (List Char)) (s : List Char) (h1 : s ≠ ['.'])
    (h2 : s ≠ ['.', '.']) : move k s = k ++ [s] := by
  simp [move, h1, h2]

theorem foldl_move_names (l : List (List Char)) :
    ∀ k, (∀ s ∈ l, s ≠ ['.'] ∧ s ≠ ['.', '.']) → l.foldl move k = k ++ l := by
  induction l with
  | nil => intro k _; simp
  | cons a t ih =>
    intro k h
    rw [List.foldl_cons, move_name k a (h a (by simp)).1 (h a (by simp)).2,
      ih _ (fun s hs => h s (by simp [hs]))]
    simp

theorem move_step_norm (isRooted : Bool) (st : Nat × List (List Char))
    (start : List (List Char)) (s : List Char) (hok : StOk isRooted st)
    (hstart : isRooted = true → start = []) :
    (stSegs (normStep isRooted st s)).foldl move start =
      move ((stSegs st).foldl move start) s := by
  obtain ⟨u, names⟩ := st
  unfold normStep
  by_cases h1 : s = ['.']
  · rw [if_pos h1, h1, move_dot]
  · rw [if_neg h1]
    by_cases h2 : s = ['.', '.']
    · rw [if_pos h2, h2, move_dotdot]
      rcases List.eq_nil_or_concat names with rfl | ⟨ns, n, hcat⟩
      · rw [if_neg (by simp)]
        cases isRooted with
        | false =>
          rw [if_pos rfl]
          simp only [stSegs, List.append_nil]
          rw [List.replicate_succ', List.foldl_append]
          simp [move_dotdot]
        | true =>
          rw [if_neg (by simp)]
          have hu : u = 0 := hok.1 rfl
          have hs := hstart rfl
          subst hu; subst hs
          simp [stSegs]
      · rw [List.concat_eq_append] at hcat
        subst hcat
        rw [if_pos (by simp)]
        have hn := hok.2 n (by simp)
        have e : List.foldl move start (List.replicate u ['.', '.'] ++ (ns ++ [n])) =
            List.foldl move start (List.replicate u ['.', '.'] ++ ns) ++ [n] := by
          rw [← List.append_assoc, List.foldl_append, List.foldl_cons, List.foldl_nil,
            move_name _ n hn.2.2.1 hn.2.2.2]
        simp only [stSegs, List.dropLast_concat]
        rw [e, List.dropLast_concat]
    · rw [if_neg h2]
      simp only [stSegs]
      rw [← List.append_assoc, List.foldl_append]
      rfl

theorem foldl_move_norm (isRooted : Bool) (start : List (List Char))
    (hstart : isRooted = true → start = []) (l : List (List Char)) :
    ∀ st, StOk isRooted st → (∀ s ∈ l, s ≠ [] ∧ ∀ c ∈ s, c ≠ '/') →
      (stSegs (l.foldl (normStep isRooted) st)).foldl move start =
        l.foldl move ((stSegs st).foldl move start) := by
  induction l with
  | nil => intro st _ _; rfl
  | cons a t ih =>
    intro st hok hl
    rw [List.foldl_cons, List.foldl_cons,
      ih _ (normStep_ok isRooted st a hok (hl a (by simp)).1 (hl a (by simp)).2)
        (fun s hs => hl s (by simp [hs])),
      move_step_norm isRooted st start a hok hstart]

theorem locate_cleanChars (cwd : List (List Char)) (path : List Char) :
    locate cwd (cleanChars path) = locate cwd path := by
  have hfold := foldl_move_norm (IsAbs path) (if IsAbs path then [] else cwd)
    (by intro h; simp [h]) (segs path) (0, []) ⟨fun _ => rfl, by simp⟩
    (fun s hs => ⟨segs_nonempty path s hs, segs_noSep path s hs⟩)
  have hst : (stSegs ((0 : Nat), ([] : List (List Char)))) = [] := rfl
  rw [hst, List.foldl_nil] at hfold
  unfold locate
  rw [IsAbs_cleanChars, ← hfold]
  rcases cleanChars_form path with ⟨_, hz, h⟩ | ⟨_, hz, h⟩ | ⟨hz, _⟩
  · have hz' : stSegs (List.foldl (normStep (IsAbs path)) (0, []) (segs path)) = [] := hz
    rw [h, hz']
    simp [segs, splitPath, move_dot]
  · have hz' : stSegs (List.foldl (normStep (IsAbs path)) (0, []) (segs path)) = [] := hz
    rw [h, hz']
    simp [segs, splitPath]
  · have hne : render (IsAbs path) (normSegs path) ≠ [] := by
      intro h0
      simp only [render, List.append_eq_nil] at h0
      exact joinSegs_eq_nil _ hz (stSegs_nonempty _ _ (normSegs_ok path)) h0.2
    rw [cleanChars_eq, if_neg hne, segs_render _ _ (normSegs_ok path)]
    rfl

/-- Every component before a `..` component of a cleaned path is `..` itself, there is
no `.` component except in the path `.`, no doubled and no trailing separator except
in the path `/`, and no `..` component in a rooted path. -/
theorem cleanChars_normal (path : List Char) :
    ¬ (['/', '/'] <:+: cleanChars path) ∧
    (['.'] ∈ splitPath (cleanChars path) → cleanChars path = ['.']) ∧
    ((cleanChars path).getLast? = some '/' → cleanChars path = ['/']) ∧
    (splitPath (cleanChars path)).Pairwise (fun a b => b = ['.', '.'] → a = ['.', '.']) ∧
    (IsAbs (cleanChars path) = true → ['.', '.'] ∉ splitPath (cleanChars path)) := by
  have hok := normSegs_ok path
  have hne := stSegs_nonempty _ _ hok
  have hnd := stSegs_ne_dot _ _ hok
  refine ⟨?_, ?_, ?_, ?_, ?_⟩
  · rintro ⟨x, y, hxy⟩
    have hsp : splitPath (cleanChars path) = splitPath x ++ [] :: splitPath y := by
      rw [← hxy]
      have : x ++ ['/', '/'] ++ y = x ++ '/' :: ('/' :: y) := by simp
      rw [this, splitPath_append_sep, splitPath_cons, if_pos rfl]
    have hx := splitPath_ne_nil x
    have hy := splitPath_ne_nil y
    have hlen : 3 ≤ (splitPath (cleanChars path)).length := by
      rw [hsp]
      have := List.length_pos.mpr hx
      have := List.length_pos.mpr hy
      simp only [List.length_append, List.length_cons]; omega
    rcases splitPath_cleanChars path with ⟨_, h⟩ | ⟨_, h⟩ | ⟨_, h⟩
    · rw [h] at hlen; simp at hlen
    · rw [h] at hlen; simp at hlen
    · rw [h] at hsp
      have hmem : ([] : List Char) ∈ stSegs (normSegs path) := by
        cases hr : IsAbs path with
        | false =>
          rw [hr] at hsp
          simp only [Bool.false_eq_true, if_false, List.nil_append] at hsp
          rw [hsp]; simp
        | true =>
          rw [hr] at hsp
          simp only [if_true, List.singleton_append] at hsp
          cases hsx : splitPath x with
          | nil => exact absurd hsx hx
          | cons a t =>
            rw [hsx] at hsp
            simp only [List.cons_append, List.cons.injEq] at hsp
            rw [hsp.2]; simp
      exact hne [] hmem rfl
  · intro hmem
    rcases splitPath_cleanChars path with ⟨h, _⟩ | ⟨_, h⟩ | ⟨_, h⟩
    · exact h
    · rw [h] at hmem; simp at hmem
    · rw [h] at hmem
      simp only [List.mem_append] at hmem
      rcases hmem with hmem | hmem
      · split at hmem <;> simp at hmem
      · exact absurd rfl (hnd _ hmem)
  · intro hlast
    obtain ⟨x, hx⟩ : ∃ x, cleanChars path = x ++ ['/'] := by
      rw [List.getLast?_eq_some_iff] at hlast
      exact hlast
    have hsp : splitPath (cleanChars path) = splitPath x ++ [[]] := by
      rw [hx, splitPath_append_sep]; rfl
    rcases splitPath_cleanChars path with ⟨_, h⟩ | ⟨h, _⟩ | ⟨hz, h⟩
    · rw [h] at hsp
      have := congrArg List.getLast? hsp
      simp at this
    · exact h
    · rw [h] at hsp
      have hl := congrArg List.getLast? hsp
      rw [List.getLast?_append_of_ne_nil _ hz, List.getLast?_concat] at hl
      have hmem : ([] : List Char) ∈ stSegs (normSegs path) :=
        List.mem_of_getLast?_eq_some hl
      exact absurd rfl (hne [] hmem)
  · have hnames : ∀ s ∈ (normSegs path).2, s ≠ ['.', '.'] :=
      fun s hs => (hok.2 s hs).2.2.2
    have hpw : (stSegs (normSegs path)).Pairwise
        (fun a b => b = ['.', '.'] → a = ['.', '.']) := by
      unfold stSegs
      rw [List.pairwise_append]
      refine ⟨?_, ?_, ?_⟩
      · exact List.pairwise_of_forall_mem_list
          (fun a ha _ _ _ => List.eq_of_mem_replicate ha)
      · exact List.pairwise_of_forall_mem_list
          (fun _ _ b hb hb' => absurd hb' (hnames b hb))
      · intro a ha _ _ _
        exact List.eq_of_mem_replicate ha
    rcases splitPath_cleanChars path with ⟨_, h⟩ | ⟨_, h⟩ | ⟨_, h⟩
    · rw [h]; simp
    · rw [h]; simp
    · rw [h]
      cases hr : IsAbs path with
      | false => simpa using hpw
      | true =>
        have hu : (normSegs path).1 = 0 := hok.1 hr
        simp only [if_true, List.singleton_append, List.pairwise_cons]
        refine ⟨?_, hpw⟩
        intro b hb hb'
        simp only [stSegs, hu, List.replicate_zero, List.nil_append] at hb
        exact absurd hb' (hnames b hb)
  · intro hr
    rw [IsAbs_cleanChars] at hr
    have hu : (normSegs path).1 = 0 := hok.1 hr
    have hnames : ∀ s ∈ (normSegs path).2, s ≠ ['.', '.'] :=
      fun s hs => (hok.2 s hs).2.2.2
    rcases splitPath_cleanChars path with ⟨_, h⟩ | ⟨_, h⟩ | ⟨_, h⟩
    · rw [h]; simp
    · rw [h]; simp
    · rw [h, hr]
      simp only [if_true, List.singleton_append, List.mem_cons, not_or]
      refine ⟨by simp, ?_⟩
      intro hmem
      simp only [stSegs, hu, List.replicate_zero, List.nil_append] at hmem
      exact hnames _ hmem rfl


/-! ### The filesystem: lookups survive the creation of directories -/

theorem Extends.refl (w : World) : Extends w w := ⟨rfl, rfl, rfl, fun _ _ h => h⟩

theorem Extends.trans {a b c : World} (h1 : Extends a b) (h2 : Extends b c) : Extends a c :=
  ⟨h2.1.trans h1.1, h2.2.1.trans h1.2.1, h2.2.2.1.trans h1.2.2.1,
    fun key n h => h2.2.2.2 key n (h1.2.2.2 key n h)⟩

theorem walkStep_mono {w w1 : World} (h : Extends w w1) (cur : List (List Char))
    (name : List Char) (k : List (List Char)) (hk : walkStep w cur name = .ok k) :
    walkStep w1 cur name = .ok k := by
  unfold walkStep at hk ⊢
  cases hn : w.node cur with
  | none => rw [hn] at hk; simp at hk
  | some nd =>
    rw [hn] at hk
    rw [h.2.2.2 cur nd hn]
    exact hk

theorem walk_mono {w w1 : World} (h : Extends w w1) (names : List (List Char)) :
    ∀ cur k, walk w cur names = .ok k → walk w1 cur names = .ok k := by
  induction names with
  | nil => intro cur k hk; simpa [walk] using hk
  | cons a t ih =>
    intro cur k hk
    rw [walk] at hk ⊢
    cases hs : walkStep w cur a with
    | error e => rw [hs] at hk; simp at hk
    | ok next =>
      rw [hs] at hk
      rw [walkStep_mono h cur a next hs]
      exact ih next k hk

theorem walk_append (w : World) (a b : List (List Char)) :
    ∀ cur, walk w cur (a ++ b) =
      match walk w cur a with
      | .error e => .error e
      | .ok k => walk w k b := by
  induction a with
  | nil => intro cur; simp [walk]
  | cons x t ih =>
    intro cur
    rw [List.cons_append, walk, walk]
    cases hs : walkStep w cur x with
    | error e => simp
    | ok next => simp only []; exact ih next

theorem walkStep_ok_move (w : World) (cur : List (List Char)) (name : List Char)
    (k : List (List Char)) (hk : walkStep w cur name = .ok k) : k = move cur name := by
  unfold walkStep at hk
  cases hn : w.node cur with
  | none => rw [hn] at hk; simp at hk
  | some nd =>
    rw [hn] at hk
    cases nd with
    | file => simp at hk
    | dir s wr =>
      cases s with
      | false => simp at hk
      | true => simp at hk; exact hk.symm

theorem walk_ok_foldl (w : World) (names : List (List Char)) :
    ∀ cur k, walk w cur names = .ok k → k = names.foldl move cur := by
  induction names with
  | nil => intro cur k hk; simp [walk] at hk; simp [hk]
  | cons a t ih =>
    intro cur k hk
    rw [walk] at hk
    cases hs : walkStep w cur a with
    | error e => rw [hs] at hk; simp at hk
    | ok next =>
      rw [hs] at hk
      rw [List.foldl_cons, ← walkStep_ok_move w cur a next hs]
      exact ih next k hk

theorem sysStat_node (w : World) (path : List Char) (n : Node)
    (h : sysStat w path = .ok n) : w.node (locate w.cwd path) = some n := by
  unfold sysStat at h
  by_cases hp : path = []
  · rw [if_pos hp] at h; simp at h
  · rw [if_neg hp] at h
    cases hw : walk w (if IsAbs path then [] else w.cwd) (segs path) with
    | error e => rw [hw] at h; simp at h
    | ok key =>
      rw [hw] at h
      dsimp only at h
      have hk := walk_ok_foldl w _ _ _ hw
      unfold locate
      rw [← hk]
      cases hn : w.node key with
      | none => rw [hn] at h; simp at h
      | some nd =>
        rw [hn] at h
        cases nd with
        | file =>
          simp only [] at h
          split at h
          · simp at h
          · simp at h; rw [h]
        | dir s wr => simp at h; rw [h]

theorem sysStat_mono {w w1 : World} (h : Extends w w1) (path : List Char) (n : Node)
    (hs : sysStat w path = .ok n) : sysStat w1 path = .ok n := by
  unfold sysStat at hs ⊢
  by_cases hp : path = []
  · rw [if_pos hp] at hs; simp at hs
  · rw [if_neg hp] at hs ⊢
    rw [h.1]
    cases hw : walk w (if IsAbs path then [] else w.cwd) (segs path) with
    | error e => rw [hw] at hs; simp at hs
    | ok key =>
      rw [hw] at hs
      rw [walk_mono h _ _ _ hw]
      dsimp only at hs ⊢
      cases hn : w.node key with
      | none => rw [hn] at hs; simp at hs
      | some nd =>
        rw [hn] at hs
        rw [h.2.2.2 key nd hn]
        exact hs


theorem findNode_cons (k key : List (List Char)) (n : Node)
    (rest : List (List (List Char) × Node)) :
    findNode ((k, n) :: rest) key = if k = key then some n else findNode rest key := by
  rw [findNode]

theorem findNode_mem (l : List (List (List Char) × Node)) (key : List (List Char)) (n : Node)
    (h : findNode l key = some n) : (key, n) ∈ l := by
  induction l with
  | nil => simp [findNode] at h
  | cons e t ih =>
    obtain ⟨k, m⟩ := e
    rw [findNode_cons] at h
    by_cases hk : k = key
    · rw [if_pos hk] at h
      simp only [Option.some.injEq] at h
      subst hk; subst h; simp
    · rw [if_neg hk] at h
      simp [ih h]

/-- What a successful `mkdir` did: it walked to the parent directory, found it
searchable and writable, found no entry under the new name, and added one directory. -/
theorem sysMkdir_ok (w w2 : World) (path : List Char) (perm : Nat)
    (h : sysMkdir w path perm = .ok w2) :
    ∃ parent last wr,
      (segs path).dropLast ++ [last] = segs path ∧
      walk w (if IsAbs path then [] else w.cwd) (segs path).dropLast = .ok parent ∧
      w.node parent = some (.dir true wr) ∧ last ≠ ['.'] ∧ last ≠ ['.', '.'] ∧
      w.node (parent ++ [last]) = none ∧
      w2 = { w with free := w.free - 1,
                    nodes := (parent ++ [last], newDir perm w.umask) :: w.nodes } := by
  unfold sysMkdir at h
  by_cases hp : path = []
  · rw [if_pos hp] at h; simp at h
  · rw [if_neg hp] at h
    cases hl : (segs path).getLast? with
    | none => rw [hl] at h; simp at h
    | some last =>
      rw [hl] at h
      dsimp only at h
      cases hw : walk w (if IsAbs path then [] else w.cwd) (segs path).dropLast with
      | error e => rw [hw] at h; simp at h
      | ok parent =>
        rw [hw] at h
        dsimp only at h
        cases hn : w.node parent with
        | none => rw [hn] at h; simp at h
        | some nd =>
          rw [hn] at h
          cases nd with
          | file => simp at h
          | dir s wr =>
            dsimp only at h
            by_cases h1 : s = false
            · rw [if_pos h1] at h; simp at h
            · rw [if_neg h1] at h
              by_cases h2 : last = ['.'] ∨ last = ['.', '.']
              · rw [if_pos h2] at h; simp at h
              · rw [if_neg h2] at h
                by_cases h3 : (w.node (parent ++ [last])).isSome = true
                · rw [if_pos h3] at h; simp at h
                · rw [if_neg h3] at h
                  by_cases h4 : wr = false
                  · rw [if_pos h4] at h; simp at h
                  · rw [if_neg h4] at h
                    by_cases h5 : w.free = 0
                    · rw [if_pos h5] at h; simp at h
                    · rw [if_neg h5] at h
                      simp only [Except.ok.injEq] at h
                      refine ⟨parent, last, wr, ?_, rfl, ?_, ?_, ?_, ?_, h.symm⟩
                      · exact List.dropLast_append_getLast? last hl
                      · simp at h1; rw [hn, h1]
                      · exact fun hx => h2 (Or.inl hx)
                      · exact fun hx => h2 (Or.inr hx)
                      · simpa using h3

theorem sysMkdir_node (w w2 : World) (path : List Char) (perm : Nat)
    (h : sysMkdir w path perm = .ok w2) (key : List (List Char)) :
    w2.node key =
      if locate w.cwd path = key then some (newDir perm w.umask) else w.node key := by
  obtain ⟨parent, last, wr, hseg, hwalk, hpar, hl1, hl2, hnew, rfl⟩ := sysMkdir_ok w w2 path perm h
  have hk := walk_ok_foldl w _ _ _ hwalk
  have hloc : locate w.cwd path = parent ++ [last] := by
    unfold locate
    rw [← hseg, List.foldl_append, ← hk]
    simp [move_name _ last hl1 hl2]
  rw [hloc]
  simp only [World.node, findNode_cons]

theorem sysMkdir_fresh (w w2 : World) (path : List Char) (perm : Nat)
    (h : sysMkdir w path perm = .ok w2) : w.node (locate w.cwd path) = none := by
  obtain ⟨parent, last, wr, hseg, hwalk, hpar, hl1, hl2, hnew, rfl⟩ := sysMkdir_ok w w2 path perm h
  have hk := walk_ok_foldl w _ _ _ hwalk
  have hloc : locate w.cwd path = parent ++ [last] := by
    unfold locate
    rw [← hseg, List.foldl_append, ← hk]
    simp [move_name _ last hl1 hl2]
  rw [hloc]; exact hnew

theorem sysMkdir_extends (w w2 : World) (path : List Char) (perm : Nat)
    (h : sysMkdir w path perm = .ok w2) : Extends w w2 := by
  have hnode := sysMkdir_node w w2 path perm h
  have hfresh := sysMkdir_fresh w w2 path perm h
  obtain ⟨parent, last, wr, _, _, _, _, _, _, hw2⟩ := sysMkdir_ok w w2 path perm h
  refine ⟨by rw [hw2], by rw [hw2], by rw [hw2], ?_⟩
  intro key n hn
  rw [hnode]
  by_cases hk : locate w.cwd path = key
  · rw [hk] at hfresh; rw [hfresh] at hn; simp at hn
  · rw [if_neg hk]; exact hn

theorem newDir_IsDir (perm umask : Nat) : (newDir perm umask).IsDir = true := rfl

theorem sysMkdir_stat (w w2 : World) (path : List Char) (perm : Nat)
    (h : sysMkdir w path perm = .ok w2) : sysStat w2 path = .ok (newDir perm w.umask) := by
  have hext := sysMkdir_extends w w2 path perm h
  have hnode := sysMkdir_node w w2 path perm h
  obtain ⟨parent, last, wr, hseg, hwalk, hpar, hl1, hl2, hnew, hw2⟩ :=
    sysMkdir_ok w w2 path perm h
  have hk := walk_ok_foldl w _ _ _ hwalk
  have hloc : locate w.cwd path = parent ++ [last] := by
    unfold locate
    rw [← hseg, List.foldl_append, ← hk]
    simp [move_name _ last hl1 hl2]
  have hp : path ≠ [] := by
    intro hp; rw [hp, segs_nil] at hseg; simp at hseg
  have hwalk2 : walk w2 (if IsAbs path then [] else w2.cwd) (segs path) =
      .ok (parent ++ [last]) := by
    rw [hext.1, ← hseg, walk_append, walk_mono hext _ _ _ hwalk]
    dsimp only
    rw [walk, walkStep, hext.2.2.2 parent _ hpar]
    simp [walk, move_name _ last hl1 hl2]
  unfold sysStat
  rw [if_neg hp, hwalk2]
  dsimp only
  rw [hnode, if_pos hloc]
  rfl


/-! ### The parent of a path, as `MkdirAll` cuts it -/

theorem parentDir_pre (path : List Char) : parentDir path <+: path := by
  unfold parentDir
  have h1 : ((path.reverse.dropWhile (fun c => decide (c = '/'))).dropWhile
      (fun c => decide (c ≠ '/'))).drop 1 <:+ path.reverse :=
    (List.drop_suffix 1 _).trans
      ((List.dropWhile_suffix _).trans (List.dropWhile_suffix _))
  have := List.reverse_prefix.mpr h1
  simpa using this

theorem parentDir_length (path : List Char) (h : path ≠ []) :
    (parentDir path).length < path.length := by
  unfold parentDir
  rw [List.length_reverse, List.length_drop]
  have hlen : path.reverse.length = path.length := List.length_reverse _
  have hpos : 0 < path.length := List.length_pos.mpr h
  have := ((List.dropWhile_suffix (fun c => decide (c ≠ '/'))).trans
    (List.dropWhile_suffix (l := path.reverse) (fun c => decide (c = '/')))).length_le
  omega

/-- The path goes on with a separator after its parent. -/
theorem parentDir_cut (path : List Char) :
    parentDir path = [] ∨ ∃ r, path = parentDir path ++ '/' :: r := by
  unfold parentDir
  have hsuf : (path.reverse.dropWhile (fun c => decide (c = '/'))).dropWhile
      (fun c => decide (c ≠ '/')) <:+ path.reverse :=
    (List.dropWhile_suffix _).trans (List.dropWhile_suffix _)
  have hhead := dropWhile_sep_head (path.reverse.dropWhile (fun c => decide (c = '/')))
  cases hd : (path.reverse.dropWhile (fun c => decide (c = '/'))).dropWhile
      (fun c => decide (c ≠ '/')) with
  | nil => left; rfl
  | cons c t =>
    right
    rw [hd] at hsuf hhead
    rcases hhead with hnil | hsep
    · simp at hnil
    · simp only [List.head?_cons, Option.some.injEq] at hsep
      subst hsep
      obtain ⟨pre, hpre⟩ := hsuf
      refine ⟨pre.reverse, ?_⟩
      have := congrArg List.reverse hpre
      rw [List.reverse_reverse] at this
      rw [← this]
      simp

theorem segs_parentDir (path : List Char) : segs (parentDir path) <+: segs path := by
  rcases parentDir_cut path with h | ⟨r, h⟩
  · rw [h, segs_nil]; exact List.nil_prefix
  · conv_rhs => rw [h, segs_append_sep]
    exact List.prefix_append _ _

theorem IsAbs_parentDir (path : List Char) (h : parentDir path ≠ []) :
    IsAbs (parentDir path) = IsAbs path := by
  obtain ⟨r, hr⟩ := parentDir_pre path
  cases hp : parentDir path with
  | nil => exact absurd hp h
  | cons c t =>
    rw [hp] at hr
    rw [← hr]
    simp [IsAbs]

/-! ### Well-formed filesystems -/

theorem World.isDir_iff (w : World) (key : List (List Char)) :
    w.isDir key = true ↔ ∃ s wr, w.node key = some (.dir s wr) := by
  unfold World.isDir
  cases h : w.node key with
  | none => simp
  | some n => cases n <;> simp [Node.IsDir]

theorem Extends.isDir {w w1 : World} (h : Extends w w1) (key : List (List Char))
    (hd : w.isDir key = true) : w1.isDir key = true := by
  rw [World.isDir_iff] at hd ⊢
  obtain ⟨s, wr, hn⟩ := hd
  exact ⟨s, wr, h.2.2.2 key _ hn⟩

theorem WellFormed_iff (w : World) :
    WellFormed w = true ↔ ∀ e ∈ w.nodes, e.1 = [] ∨ w.isDir e.1.dropLast = true := by
  unfold WellFormed
  rw [List.all_eq_true]
  constructor
  · intro h e he
    have := h e he
    rw [Bool.or_eq_true, decide_eq_true_eq] at this
    exact this
  · intro h e he
    rw [Bool.or_eq_true, decide_eq_true_eq]
    exact h e he

theorem WellFormed.parent {w : World} (h : WellFormed w = true) (key : List (List Char))
    (name : List Char) (n : Node) (hn : w.node (key ++ [name]) = some n) :
    w.isDir key = true := by
  have hm := findNode_mem _ _ _ hn
  rcases (WellFormed_iff w).mp h _ hm with h0 | h1
  · simp at h0
  · simpa using h1

theorem WellFormed.ancestors {w : World} (h : WellFormed w = true) (key : List (List Char))
    (hd : w.isDir key = true) : ∀ pre, pre <+: key → w.isDir pre = true := by
  intro pre ⟨t, ht⟩
  subst ht
  induction t using List.reverseRecOn with
  | nil => simpa using hd
  | append_singleton t x ih =>
    apply ih
    rw [← List.append_assoc] at hd
    obtain ⟨s, wr, hn⟩ := (World.isDir_iff _ _).mp hd
    exact WellFormed.parent h _ x _ hn

theorem sysMkdir_wellFormed (w w2 : World) (path : List Char) (perm : Nat)
    (h : sysMkdir w path perm = .ok w2) (hw : WellFormed w = true) :
    WellFormed w2 = true := by
  have hext := sysMkdir_extends w w2 path perm h
  obtain ⟨parent, last, wr, _, _, hpar, _, _, _, hw2⟩ := sysMkdir_ok w w2 path perm h
  rw [WellFormed_iff] at hw ⊢
  intro e he
  have hnodes : w2.nodes = (parent ++ [last], newDir perm w.umask) :: w.nodes := by rw [hw2]
  rw [hnodes] at he
  simp only [List.mem_cons] at he
  rcases he with rfl | he
  · right
    simp only [List.dropLast_concat]
    exact hext.isDir parent ((World.isDir_iff _ _).mpr ⟨true, wr, hpar⟩)
  · rcases hw e he with h0 | h1
    · left; exact h0
    · right; exact hext.isDir _ h1


/-! ### What `MkdirAll` does to the filesystem -/

theorem Made.extends {perm : Nat} {path : List Char} {w w1 : World}
    (h : Made perm path w w1) : Extends w w1 := by
  induction h with
  | refl => exact Extends.refl _
  | step _ _ q _ _ _ hmk ih => exact ih.trans (sysMkdir_extends _ _ q perm hmk)

theorem Made.wellFormed {perm : Nat} {path : List Char} {w w1 : World}
    (h : Made perm path w w1) (hw : WellFormed w = true) : WellFormed w1 = true := by
  induction h with
  | refl => exact hw
  | step _ _ q _ _ _ hmk ih => exact sysMkdir_wellFormed _ _ q perm hmk ih

theorem Made.weaken {perm : Nat} {path p : List Char} {w w1 : World}
    (h : Made perm path w w1) (habs : path ≠ [] → IsAbs path = IsAbs p)
    (hseg : segs path <+: segs p) : Made perm p w w1 := by
  induction h with
  | refl => exact Made.refl _
  | step w2 w3 q _ hq hs hmk ih =>
    refine Made.step _ w2 w3 q ih ?_ (hs.trans hseg) hmk
    intro hq0
    have hpath : path ≠ [] := by
      intro h0
      obtain ⟨_, last, _, hl, _⟩ := sysMkdir_ok _ _ q perm hmk
      rw [h0, segs_nil] at hs
      have := List.prefix_nil.mp hs
      rw [this] at hl
      simp at hl
    rw [hq hq0, habs hpath]

/-- Every entry made is a directory at the location of a leading part of the path that
ends in a name. -/
theorem Made.fresh {perm : Nat} {path : List Char} {w w1 : World}
    (h : Made perm path w w1) (key : List (List Char)) (n : Node)
    (h0 : w.node key = none) (h1 : w1.node key = some n) :
    n.IsDir = true ∧ ∃ init last, init ++ [last] <+: segs path ∧ last ≠ ['.'] ∧
      last ≠ ['.', '.'] ∧
      key = (init ++ [last]).foldl move (if IsAbs path then [] else w.cwd) := by
  induction h with
  | refl => rw [h0] at h1; simp at h1
  | step wb wc q hm hq hs hmk ih =>
    cases hb : wb.node key with
    | some nb =>
      have := (sysMkdir_extends _ _ q perm hmk).2.2.2 key nb hb
      rw [this] at h1
      simp only [Option.some.injEq] at h1
      subst h1
      exact ih hb
    | none =>
      rw [sysMkdir_node _ _ q perm hmk key] at h1
      by_cases hk : locate wb.cwd q = key
      · rw [if_pos hk] at h1
        simp only [Option.some.injEq] at h1
        subst h1
        refine ⟨rfl, ?_⟩
        obtain ⟨parent, last, wr, hseg, _, _, hl1, hl2, _, _⟩ := sysMkdir_ok _ _ q perm hmk
        refine ⟨(segs q).dropLast, last, by rw [hseg]; exact hs, hl1, hl2, ?_⟩
        have hqne : q ≠ [] := by
          intro hq0; rw [hq0, segs_nil] at hseg; simp at hseg
        rw [hseg, ← hk, locate, hq hqne, hm.extends.1]
      · rw [if_neg hk, hb] at h1; simp at h1

theorem Stat_ok (w : World) (path : List Char) (n : Node) :
    Stat w path = .ok n ↔ sysStat w path = .ok n := by
  unfold Stat
  cases sysStat w path <;> simp

theorem Lstat_ok (w : World) (path : List Char) (n : Node) :
    Lstat w path = .ok n ↔ sysStat w path = .ok n := by
  unfold Lstat
  cases sysStat w path <;> simp

theorem Mkdir_ok (w w2 : World) (path : List Char) (perm : Nat) :
    Mkdir w path perm = .ok w2 ↔ sysMkdir w path perm = .ok w2 := by
  unfold Mkdir
  cases sysMkdir w path perm <;> simp

theorem Mkdir_error (w : World) (path : List Char) (perm : Nat) (e : PathError)
    (h : Mkdir w path perm = .error e) : e.Path = String.mk path := by
  unfold Mkdir at h
  cases hs : sysMkdir w path perm with
  | error x => rw [hs] at h; simp at h; rw [← h]
  | ok w2 => rw [hs] at h; simp at h

theorem Node.IsDir_iff (n : Node) : n.IsDir = true ↔ ∃ s wr, n = .dir s wr := by
  cases n <;> simp [Node.IsDir]

theorem mkdirAllLoop_succ (fuel : Nat) (w : World) (path : List Char) (perm : Nat) :
    mkdirAllLoop (fuel + 1) w path perm =
      match Stat w path with
      | .ok dir =>
        if dir.IsDir then (none, w)
        else (some ⟨"mkdir", String.mk path, .ENOTDIR⟩, w)
      | .error _ =>
        match (if 0 < (parentDir path).length then mkdirAllLoop fuel w (parentDir path) perm
            else (none, w)) with
        | (some err, w1) => (some err, w1)
        | (none, w1) =>
          match Mkdir w1 path perm with
          | .ok w2 => (none, w2)
          | .error err =>
            match Lstat w1 path with
            | .ok dir => if dir.IsDir then (none, w1) else (some err, w1)
            | .error _ => (some err, w1) := by
  rw [mkdirAllLoop]

/-- The result of `MkdirAll`: only directories were made, on leading parts of the path;
without error the path is a directory afterwards; an error names a leading part of the
path. -/
theorem mkdirAllLoop_spec (perm : Nat) :
    ∀ fuel w path,
      Made perm path w (mkdirAllLoop fuel w path perm).2 ∧
      ((mkdirAllLoop fuel w path perm).1 = none →
        ∃ s wr, sysStat (mkdirAllLoop fuel w path perm).2 path = .ok (.dir s wr)) ∧
      (∀ e, (mkdirAllLoop fuel w path perm).1 = some e → e.Path.data <+: path) := by
  intro fuel
  induction fuel with
  | zero =>
    intro w path
    refine ⟨Made.refl _, ?_, ?_⟩
    · intro h; simp [mkdirAllLoop] at h
    · intro e h
      simp only [mkdirAllLoop, Option.some.injEq] at h
      rw [← h]
  | succ fuel ih =>
    intro w path
    rw [mkdirAllLoop_succ]
    cases hS : Stat w path with
    | ok dir =>
      dsimp only
      by_cases hd : dir.IsDir = true
      · rw [if_pos hd]
        refine ⟨Made.refl _, ?_, ?_⟩
        · intro _
          obtain ⟨s, wr, rfl⟩ := (Node.IsDir_iff dir).mp hd
          exact ⟨s, wr, (Stat_ok _ _ _).mp hS⟩
        · intro e h; simp at h
      · rw [if_neg hd]
        refine ⟨Made.refl _, ?_, ?_⟩
        · intro h; simp at h
        · intro e h
          simp only [Option.some.injEq] at h
          rw [← h]
    | error err0 =>
      dsimp only
      have hr0 : Made perm path w
          (if 0 < (parentDir path).length then mkdirAllLoop fuel w (parentDir path) perm
            else (none, w)).2 ∧
          (∀ e, (if 0 < (parentDir path).length then mkdirAllLoop fuel w (parentDir path) perm
            else (none, w)).1 = some e → e.Path.data <+: path) := by
        by_cases hp : 0 < (parentDir path).length
        · rw [if_pos hp]
          obtain ⟨h1, _, h3⟩ := ih w (parentDir path)
          refine ⟨h1.weaken (fun hne => IsAbs_parentDir path hne) (segs_parentDir path), ?_⟩
          intro e he
          exact (h3 e he).trans (parentDir_pre path)
        · rw [if_neg hp]
          exact ⟨Made.refl _, by intro e h; simp at h⟩
      generalize (if 0 < (parentDir path).length then mkdirAllLoop fuel w (parentDir path) perm
            else (none, w)) = r0 at hr0
      obtain ⟨e0, w1⟩ := r0
      obtain ⟨hm, hpre⟩ := hr0
      cases e0 with
      | some err =>
        dsimp only
        exact ⟨hm, by intro h; simp at h, hpre⟩
      | none =>
        dsimp only
        cases hM : Mkdir w1 path perm with
        | ok w2 =>
          dsimp only
          have hsys := (Mkdir_ok _ _ _ _).mp hM
          refine ⟨Made.step w w1 w2 path hm (fun _ => rfl) (List.prefix_refl _) hsys, ?_, ?_⟩
          · intro _
            have := sysMkdir_stat w1 w2 path perm hsys
            obtain ⟨s, wr, hn⟩ := (Node.IsDir_iff _).mp (newDir_IsDir perm w1.umask)
            rw [hn] at this
            exact ⟨s, wr, this⟩
          · intro e h; simp at h
        | error err =>
          dsimp only
          have hpath := Mkdir_error _ _ _ _ hM
          cases hL : Lstat w1 path with
          | ok dir =>
            dsimp only
            by_cases hd : dir.IsDir = true
            · rw [if_pos hd]
              refine ⟨hm, ?_, by intro e h; simp at h⟩
              intro _
              obtain ⟨s, wr, rfl⟩ := (Node.IsDir_iff dir).mp hd
              exact ⟨s, wr, (Lstat_ok _ _ _).mp hL⟩
            · rw [if_neg hd]
              refine ⟨hm, by intro h; simp at h, ?_⟩
              intro e h
              simp only [Option.some.injEq] at h
              rw [← h, hpath]
          | error _ =>
            dsimp only
            refine ⟨hm, by intro h; simp at h, ?_⟩
            intro e h
            simp only [Option.some.injEq] at h
            rw [← h, hpath]

theorem mkdirAllLoop_fuel (perm : Nat) :
    ∀ fuel1 fuel2 w path, path.length < fuel1 → path.length < fuel2 →
      mkdirAllLoop fuel1 w path perm = mkdirAllLoop fuel2 w path perm := by
  intro fuel1
  induction fuel1 with
  | zero => intro _ _ _ h; omega
  | succ f1 ih =>
    intro fuel2 w path h1 h2
    cases fuel2 with
    | zero => omega
    | succ f2 =>
      rw [mkdirAllLoop_succ, mkdirAllLoop_succ]
      by_cases hp : 0 < (parentDir path).length
      · have hne : path ≠ [] := by
          intro h0; rw [h0] at hp; simp [parentDir] at hp
        have hlt := parentDir_length path hne
        rw [if_pos hp, if_pos hp, ih f2 w (parentDir path) (by omega) (by omega)]
      · rw [if_neg hp, if_neg hp]


theorem Mkdir_error_sys (w : World) (path : List Char) (perm : Nat) (e : PathError)
    (h : Mkdir w path perm = .error e) :
    e.Op = "mkdir" ∧ e.Path = String.mk path ∧ sysMkdir w path perm = .error e.Err := by
  unfold Mkdir at h
  cases hs : sysMkdir w path perm with
  | error x =>
    rw [hs] at h
    simp only [Except.error.injEq] at h
    rw [← h]
    exact ⟨rfl, rfl, rfl⟩
  | ok w2 => rw [hs] at h; simp at h

theorem Stat_not_dir (w : World) (path : List Char) (dir : Node)
    (h : Stat w path = .ok dir) (hd : ¬ dir.IsDir = true) : sysStat w path = .ok .file := by
  have hs := (Stat_ok _ _ _).mp h
  cases dir with
  | file => exact hs
  | dir s wr => exact absurd rfl hd

/-- An error of `MkdirAll` says where it failed: at the path or at an ancestor of it,
where a plain file is in the way or `mkdir` failed. -/
theorem mkdirAllLoop_error (perm : Nat) :
    ∀ fuel w path, path.length < fuel →
      ∀ e, (mkdirAllLoop fuel w path perm).1 = some e →
        FailedAt perm (mkdirAllLoop fuel w path perm).2 path e := by
  intro fuel
  induction fuel with
  | zero => intro _ _ h; omega
  | succ fuel ih =>
    intro w path hlen
    rw [mkdirAllLoop_succ]
    cases hS : Stat w path with
    | ok dir =>
      dsimp only
      by_cases hd : dir.IsDir = true
      · rw [if_pos hd]
        intro e h; simp at h
      · rw [if_neg hd]
        intro e h
        simp only [Option.some.injEq] at h
        subst h
        exact ⟨rfl, ⟨[], by simp, Or.inl rfl⟩, Or.inl ⟨Stat_not_dir w path dir hS hd, rfl⟩⟩
    | error err0 =>
      dsimp only
      have hr0 : ∀ e,
          (if 0 < (parentDir path).length then mkdirAllLoop fuel w (parentDir path) perm
            else (none, w)).1 = some e →
          FailedAt perm
            (if 0 < (parentDir path).length then mkdirAllLoop fuel w (parentDir path) perm
              else (none, w)).2 path e := by
        by_cases hp : 0 < (parentDir path).length
        · rw [if_pos hp]
          intro e he
          have hne : path ≠ [] := by
            intro h0; rw [h0] at hp; simp [parentDir] at hp
          have hlt := parentDir_length path hne
          obtain ⟨hop, ⟨rest, hrest, hsep⟩, hfail⟩ :=
            ih w (parentDir path) (by omega) e he
          refine ⟨hop, ?_, hfail⟩
          rcases parentDir_cut path with h0 | ⟨r, hr⟩
          · rw [h0] at hp; simp at hp
          · refine ⟨rest ++ '/' :: r, ?_, ?_⟩
            · rw [← List.append_assoc, ← hrest]; exact hr
            · right
              rcases hsep with hnil | hhead
              · rw [hnil]; rfl
              · cases rest with
                | nil => simp at hhead
                | cons c t => simpa using hhead
        · rw [if_neg hp]
          intro e h; simp at h
      generalize (if 0 < (parentDir path).length then mkdirAllLoop fuel w (parentDir path) perm
            else (none, w)) = r0 at hr0
      obtain ⟨e0, w1⟩ := r0
      cases e0 with
      | some err =>
        dsimp only
        intro e h
        exact hr0 e h
      | none =>
        dsimp only
        cases hM : Mkdir w1 path perm with
        | ok w2 =>
          dsimp only
          intro e h; simp at h
        | error err =>
          dsimp only
          obtain ⟨hop, hpath, hsys⟩ := Mkdir_error_sys _ _ _ _ hM
          have hdata : err.Path.data = path := by rw [hpath]
          cases hL : Lstat w1 path with
          | ok dir =>
            dsimp only
            by_cases hd : dir.IsDir = true
            · rw [if_pos hd]
              intro e h; simp at h
            · rw [if_neg hd]
              intro e h
              simp only [Option.some.injEq] at h
              subst h
              refine ⟨hop, ⟨[], by rw [hdata]; simp, Or.inl rfl⟩, Or.inr ⟨?_, ?_⟩⟩
              · rw [hdata]; exact hsys
              · intro s wr hs
                rw [hdata, ← Lstat_ok, hL] at hs
                simp only [Except.ok.injEq] at hs
                rw [hs] at hd
                exact hd rfl
          | error el =>
            dsimp only
            intro e h
            simp only [Option.some.injEq] at h
            subst h
            refine ⟨hop, ⟨[], by rw [hdata]; simp, Or.inl rfl⟩, Or.inr ⟨?_, ?_⟩⟩
            · rw [hdata]; exact hsys
            · intro s wr hs
              rw [hdata, ← Lstat_ok, hL] at hs
              simp at hs

/-- More fuel than the length of the path changes nothing: the recursion of `MkdirAll`
ends before the fuel does. -/
theorem MkdirAll_fuel (w : World) (path : String) (perm extra : Nat) :
    mkdirAllLoop (path.data.length + 1 + extra) w path.data perm = MkdirAll w path perm :=
  mkdirAllLoop_fuel perm _ _ w path.data (by omega) (by omega)

/-! ### `GetOutputsDir` -/

theorem GetOutputsDir_eq (w : World) :
    GetOutputsDir w =
      match MkdirAll w (resolvedDir w) 0o755 with
      | (some err, w1) => ⟨"", some err, w1⟩
      | (none, w1) => ⟨resolvedDir w, none, w1⟩ := rfl

theorem GetOutputsDir_world (w : World) :
    (GetOutputsDir w).world = (MkdirAll w (resolvedDir w) 0o755).2 := by
  rw [GetOutputsDir_eq]
  rcases MkdirAll w (resolvedDir w) 0o755 with ⟨_ | e, w1⟩ <;> rfl

theorem GetOutputsDir_err (w : World) :
    (GetOutputsDir w).err = (MkdirAll w (resolvedDir w) 0o755).1 := by
  rw [GetOutputsDir_eq]
  rcases MkdirAll w (resolvedDir w) 0o755 with ⟨_ | e, w1⟩ <;> rfl

theorem GetOutputsDir_dir_ok (w : World) (h : (GetOutputsDir w).err = none) :
    (GetOutputsDir w).dir = resolvedDir w := by
  rw [GetOutputsDir_eq] at h ⊢
  generalize MkdirAll w (resolvedDir w) 0o755 = r at h ⊢
  rcases r with ⟨_ | e, w1⟩
  · rfl
  · simp at h

theorem GetOutputsDir_dir_err (w : World) (h : (GetOutputsDir w).err ≠ none) :
    (GetOutputsDir w).dir = "" := by
  rw [GetOutputsDir_eq] at h ⊢
  generalize MkdirAll w (resolvedDir w) 0o755 = r at h ⊢
  rcases r with ⟨_ | e, w1⟩
  · simp at h
  · rfl

theorem resolvedDir_data (w : World) : (resolvedDir w).data = cleanChars (rawDir w).data := rfl

theorem GetOutputsDir_made (w : World) :
    Made 0o755 (resolvedDir w).data w (GetOutputsDir w).world := by
  rw [GetOutputsDir_world]
  exact (mkdirAllLoop_spec 0o755 _ w (resolvedDir w).data).1

theorem GetOutputsDir_stat (w : World) (h : (GetOutputsDir w).err = none) :
    ∃ s wr, sysStat (GetOutputsDir w).world (resolvedDir w).data = .ok (.dir s wr) := by
  rw [GetOutputsDir_err] at h
  rw [GetOutputsDir_world]
  exact (mkdirAllLoop_spec 0o755 _ w (resolvedDir w).data).2.1 h

theorem GetOutputsDir_isDir (w : World) (h : (GetOutputsDir w).err = none) :
    (GetOutputsDir w).world.isDir
      (locate (GetOutputsDir w).world.cwd (resolvedDir w).data) = true := by
  obtain ⟨s, wr, hs⟩ := GetOutputsDir_stat w h
  exact (World.isDir_iff _ _).mpr ⟨s, wr, sysStat_node _ _ _ hs⟩

theorem rawDir_unset (w : World)
    (h : LookupEnv w EnvVarName = none ∨ LookupEnv w EnvVarName = some "") :
    rawDir w = DefaultOutputsDir := by
  have : Getenv w EnvVarName = "" := by
    unfold Getenv
    rcases h with h | h <;> rw [h]
  unfold rawDir
  rw [if_pos this]

theorem rawDir_override (w : World) (v : String) (h : LookupEnv w EnvVarName = some v)
    (hv : v ≠ "") : rawDir w = v := by
  have : Getenv w EnvVarName = v := by
    unfold Getenv; rw [h]
  unfold rawDir
  rw [this, if_neg hv]

theorem segs_cleanChars (path : List Char) :
    ∃ D N, segs (cleanChars path) = D ++ N ∧
      (∀ d ∈ D, d = ['.'] ∨ d = ['.', '.']) ∧ (∀ n ∈ N, n ≠ ['.'] ∧ n ≠ ['.', '.']) := by
  rcases cleanChars_form path with ⟨_, _, h⟩ | ⟨_, _, h⟩ | ⟨hz, h⟩
  · refine ⟨[['.']], [], by rw [h]; rfl, by simp, by simp⟩
  · refine ⟨[], [], by rw [h]; rfl, by simp, by simp⟩
  · have hok := normSegs_ok path
    have hne : render (IsAbs path) (normSegs path) ≠ [] := by
      intro h0
      simp only [render, List.append_eq_nil] at h0
      exact joinSegs_eq_nil _ hz (stSegs_nonempty _ _ hok) h0.2
    refine ⟨List.replicate (normSegs path).1 ['.', '.'], (normSegs path).2, ?_, ?_, ?_⟩
    · rw [cleanChars_eq, if_neg hne, segs_render _ _ hok]; rfl
    · intro d hd; right; exact List.eq_of_mem_replicate hd
    · intro n hn; exact ⟨(hok.2 n hn).2.2.1, (hok.2 n hn).2.2.2⟩

/-- A directory made on the way to a cleaned path lies on the chain from the root to the
location of that path. -/
theorem chain_of_clean (start : List (List Char)) (D N init : List (List Char))
    (last : List Char) (hD : ∀ d ∈ D, d = ['.'] ∨ d = ['.', '.'])
    (hN : ∀ n ∈ N, n ≠ ['.'] ∧ n ≠ ['.', '.']) (hpre : init ++ [last] <+: D ++ N)
    (h1 : last ≠ ['.']) (h2 : last ≠ ['.', '.']) :
    (init ++ [last]).foldl move start <+: (D ++ N).foldl move start := by
  rcases List.prefix_or_prefix_of_prefix hpre (List.prefix_append D N) with h | h
  · have hmem : last ∈ D := h.subset (by simp)
    rcases hD last hmem with h | h
    · exact absurd h h1
    · exact absurd h h2
  · obtain ⟨t, ht⟩ := h
    rw [← ht] at hpre ⊢
    have htN : t <+: N := (List.prefix_append_right_inj D).mp hpre
    have hspec : ∀ n ∈ t, n ≠ ['.'] ∧ n ≠ ['.', '.'] := fun n hn => hN n (htN.subset hn)
    rw [List.foldl_append, List.foldl_append, foldl_move_names t _ hspec,
      foldl_move_names N _ hN]
    exact (List.prefix_append_right_inj _).mpr htN


theorem Clean_ne_empty (path : String) : Clean path ≠ "" := by
  intro h
  have := congrArg String.data h
  exact cleanChars_ne_nil path.data this

/-- C1 (default fallback): when `OUTPUT_DIR` is unset or set to the empty string, a
successful `GetOutputsDir` returns `outputs`, the cleaned form of `./outputs`; the
value is the same in the two cases. -/
theorem GetOutputsDir_default_fallback (w : World)
    (henv : LookupEnv w "OUTPUT_DIR" = none ∨ LookupEnv w "OUTPUT_DIR" = some "")
    (hok : (GetOutputsDir w).err = none) :
    (GetOutputsDir w).dir = "outputs" ∧ (GetOutputsDir w).dir = Clean "./outputs" := by
  have hraw : rawDir w = "./outputs" := rawDir_unset w henv
  have hdir : (GetOutputsDir w).dir = Clean "./outputs" := by
    rw [GetOutputsDir_dir_ok w hok, resolvedDir, hraw]
  exact ⟨by rw [hdir]; decide, hdir⟩

theorem GetOutputsDir_default_fallback_witness :
    (LookupEnv tmpWorld "OUTPUT_DIR" = none ∧ (GetOutputsDir tmpWorld).err = none ∧
      (GetOutputsDir tmpWorld).dir = "outputs") ∧
    (LookupEnv (overrideWorld "") "OUTPUT_DIR" = some "" ∧
      (GetOutputsDir (overrideWorld "")).err = none ∧
      (GetOutputsDir (overrideWorld "")).dir = "outputs") :=
  ⟨⟨by decide, by decide,
      (GetOutputsDir_default_fallback tmpWorld (Or.inl (by decide)) (by decide)).1⟩,
    ⟨by decide, by decide,
      (GetOutputsDir_default_fallback (overrideWorld "") (Or.inr (by decide))
        (by decide)).1⟩⟩

/-- C2 (override respected): for a non-empty value `v` of `OUTPUT_DIR`, a successful
`GetOutputsDir` returns `Clean v`; the value `custom/../out` cleans to `out`. -/
theorem GetOutputsDir_override_respected (w : World) (v : String)
    (henv : LookupEnv w "OUTPUT_DIR" = some v) (hv : v ≠ "")
    (hok : (GetOutputsDir w).err = none) :
    (GetOutputsDir w).dir = Clean v ∧ Clean "custom/../out" = "out" := by
  refine ⟨?_, by decide⟩
  rw [GetOutputsDir_dir_ok w hok, resolvedDir, rawDir_override w v henv hv]

theorem GetOutputsDir_override_respected_witness :
    (GetOutputsDir (overrideWorld "custom/../out")).dir = Clean "custom/../out" ∧
    Clean "custom/../out" = "out" :=
  GetOutputsDir_override_respected (overrideWorld "custom/../out") "custom/../out"
    (by decide) (by decide) (by decide)

theorem GetOutputsDir_ancestors (w : World) (hw : WellFormed w = true)
    (hok : (GetOutputsDir w).err = none) :
    ∀ key, key <+: locate (GetOutputsDir w).world.cwd (resolvedDir w).data →
      (GetOutputsDir w).world.isDir key = true :=
  WellFormed.ancestors ((GetOutputsDir_made w).wellFormed hw) _ (GetOutputsDir_isDir w hok)

/-- C3 (existence postcondition): in a well-formed filesystem, when `GetOutputsDir`
returns without error, the location of the returned path, resolved against the working
directory, and every ancestor of that location is a directory afterwards. -/
theorem GetOutputsDir_directory_exists (w : World) (hw : WellFormed w = true)
    (hok : (GetOutputsDir w).err = none) :
    ∀ key, key <+: locate (GetOutputsDir w).world.cwd (GetOutputsDir w).dir.data →
      (GetOutputsDir w).world.isDir key = true := by
  rw [GetOutputsDir_dir_ok w hok]
  exact GetOutputsDir_ancestors w hw hok

theorem GetOutputsDir_directory_exists_witness :
    (GetOutputsDir (overrideWorld "a/b")).world.isDir [['t'], ['a']] = true :=
  GetOutputsDir_directory_exists (overrideWorld "a/b") (by decide) (by decide)
    [['t'], ['a']] (by decide)

/-- C4 (idempotence): after a call of `GetOutputsDir` without error, a second call in
the resulting state returns the same path without error and leaves that state as it
is. -/
theorem GetOutputsDir_idempotent (w : World) (hok : (GetOutputsDir w).err = none) :
    GetOutputsDir (GetOutputsDir w).world = GetOutputsDir w := by
  obtain ⟨s, wr, hs⟩ := GetOutputsDir_stat w hok
  have hext := (GetOutputsDir_made w).extends
  have henv : resolvedDir (GetOutputsDir w).world = resolvedDir w := by
    unfold resolvedDir rawDir Getenv LookupEnv
    rw [hext.2.1]
  have hsecond : MkdirAll (GetOutputsDir w).world (resolvedDir w) 0o755 =
      (none, (GetOutputsDir w).world) := by
    unfold MkdirAll
    rw [mkdirAllLoop_succ, (Stat_ok _ _ _).mpr hs]
    rfl
  have hfirst : GetOutputsDir w = ⟨resolvedDir w, none, (GetOutputsDir w).world⟩ := by
    have h1 := GetOutputsDir_dir_ok w hok
    cases hg : GetOutputsDir w with
    | mk d e w1 =>
      rw [hg] at h1 hok
      simp only at h1 hok
      rw [h1, hok]
  rw [GetOutputsDir_eq (GetOutputsDir w).world, henv, hsecond]
  exact hfirst.symm

theorem GetOutputsDir_idempotent_witness :
    GetOutputsDir (GetOutputsDir (overrideWorld "a/b")).world =
      GetOutputsDir (overrideWorld "a/b") :=
  GetOutputsDir_idempotent (overrideWorld "a/b") (by decide)

/-- C5 (no silent failure masking): in a well-formed filesystem where the location of
the cleaned path, or an ancestor of it, is a file that is no directory, `GetOutputsDir`
returns an error and the empty path. -/
theorem GetOutputsDir_collision_fails (w : World) (hw : WellFormed w = true)
    (hfile : ∃ key, key <+: locate w.cwd (resolvedDir w).data ∧ w.node key = some .file) :
    (GetOutputsDir w).err ≠ none ∧ (GetOutputsDir w).dir = "" := by
  have herr : (GetOutputsDir w).err ≠ none := by
    intro hok
    obtain ⟨key, hpre, hkey⟩ := hfile
    have hext := (GetOutputsDir_made w).extends
    have hall := GetOutputsDir_ancestors w hw hok key (by rw [hext.1]; exact hpre)
    have hstill := hext.2.2.2 key _ hkey
    rw [World.isDir, hstill] at hall
    simp [Node.IsDir] at hall
  exact ⟨herr, GetOutputsDir_dir_err w herr⟩

theorem GetOutputsDir_collision_fails_witness :
    (GetOutputsDir collideWorld).err ≠ none ∧ (GetOutputsDir collideWorld).dir = "" :=
  GetOutputsDir_collision_fails collideWorld (by decide)
    ⟨[['t'], ['a']], by decide, by decide⟩


/-- C6 (cleaning correctness): the path returned without error has no doubled
separator, no `.` component unless it is `.`, no trailing separator unless it is `/`,
no `..` component after a component that is not `..`, no `..` component at all when it
is rooted; it is rooted exactly when the input is, and from every working directory it
denotes the lexical location of the input (the override, or the default). -/
theorem GetOutputsDir_cleaning_correctness (w : World)
    (hok : (GetOutputsDir w).err = none) :
    ¬ (['/', '/'] <:+: (GetOutputsDir w).dir.data) ∧
    (['.'] ∈ splitPath (GetOutputsDir w).dir.data → (GetOutputsDir w).dir.data = ['.']) ∧
    ((GetOutputsDir w).dir.data.getLast? = some '/' → (GetOutputsDir w).dir.data = ['/']) ∧
    (splitPath (GetOutputsDir w).dir.data).Pairwise
      (fun a b => b = ['.', '.'] → a = ['.', '.']) ∧
    (IsAbs (GetOutputsDir w).dir.data = true →
      ['.', '.'] ∉ splitPath (GetOutputsDir w).dir.data) ∧
    IsAbs (GetOutputsDir w).dir.data = IsAbs (rawDir w).data ∧
    ∀ cwd, locate cwd (GetOutputsDir w).dir.data = locate cwd (rawDir w).data := by
  rw [GetOutputsDir_dir_ok w hok, resolvedDir_data]
  obtain ⟨h1, h2, h3, h4, h5⟩ := cleanChars_normal (rawDir w).data
  exact ⟨h1, h2, h3, h4, h5, IsAbs_cleanChars _, fun cwd => locate_cleanChars cwd _⟩

theorem GetOutputsDir_cleaning_correctness_witness :
    (GetOutputsDir (overrideWorld "x//./y/../z/")).dir = "x/z" ∧
    ¬ (['/', '/'] <:+: (GetOutputsDir (overrideWorld "x//./y/../z/")).dir.data) ∧
    ∀ cwd, locate cwd (GetOutputsDir (overrideWorld "x//./y/../z/")).dir.data =
      locate cwd (rawDir (overrideWorld "x//./y/../z/")).data :=
  ⟨by decide,
    (GetOutputsDir_cleaning_correctness (overrideWorld "x//./y/../z/") (by decide)).1,
    (GetOutputsDir_cleaning_correctness (overrideWorld "x//./y/../z/")
      (by decide)).2.2.2.2.2.2⟩

theorem locate_abs (cwd cwd1 : List (List Char)) (path : List Char)
    (h : IsAbs path = true) : locate cwd path = locate cwd1 path := by
  unfold locate
  rw [h]; rfl

/-- C7 (absolute path handling): for a non-empty override `v`, the path returned
without error is absolute exactly when `v` is; when `v` is absolute, every successful
call under that override returns the same path whatever the working directory and the
filesystem, the location of the path does not depend on the working directory, and a
directory is there afterwards; `/tmp/abs-outputs/./nested/..` gives
`/tmp/abs-outputs`. -/
theorem GetOutputsDir_absolute_path (w : World) (v : String)
    (henv : LookupEnv w "OUTPUT_DIR" = some v) (hv : v ≠ "")
    (hok : (GetOutputsDir w).err = none) :
    IsAbs (GetOutputsDir w).dir.data = IsAbs v.data ∧
    (IsAbs v.data = true →
      (∀ w2, LookupEnv w2 "OUTPUT_DIR" = some v → (GetOutputsDir w2).err = none →
        (GetOutputsDir w2).dir = (GetOutputsDir w).dir) ∧
      (∀ cwd, locate cwd (GetOutputsDir w).dir.data = locate [] (GetOutputsDir w).dir.data) ∧
      (GetOutputsDir w).world.isDir (locate [] (GetOutputsDir w).dir.data) = true) ∧
    Clean "/tmp/abs-outputs/./nested/.." = "/tmp/abs-outputs" := by
  have hdir : (GetOutputsDir w).dir = Clean v := by
    rw [GetOutputsDir_dir_ok w hok, resolvedDir, rawDir_override w v henv hv]
  have habs : IsAbs (GetOutputsDir w).dir.data = IsAbs v.data := by
    rw [hdir]; exact IsAbs_cleanChars v.data
  refine ⟨habs, ?_, by decide⟩
  intro hv1
  rw [← habs] at hv1
  refine ⟨?_, fun cwd => locate_abs _ _ _ hv1, ?_⟩
  · intro w2 henv2 hok2
    rw [hdir, GetOutputsDir_dir_ok w2 hok2, resolvedDir, rawDir_override w2 v henv2 hv]
  · have := GetOutputsDir_isDir w hok
    rw [← GetOutputsDir_dir_ok w hok, locate_abs _ [] _ hv1] at this
    exact this

theorem GetOutputsDir_absolute_path_witness :
    IsAbs (GetOutputsDir (overrideWorld "/tmp/abs-outputs/./nested/..")).dir.data =
      IsAbs "/tmp/abs-outputs/./nested/..".data ∧
    (GetOutputsDir (overrideWorld "/tmp/abs-outputs/./nested/..")).world.isDir
      (locate [] (GetOutputsDir (overrideWorld "/tmp/abs-outputs/./nested/..")).dir.data) =
        true :=
  ⟨(GetOutputsDir_absolute_path (overrideWorld "/tmp/abs-outputs/./nested/..")
      "/tmp/abs-outputs/./nested/.." (by decide) (by decide) (by decide)).1,
    ((GetOutputsDir_absolute_path (overrideWorld "/tmp/abs-outputs/./nested/..")
      "/tmp/abs-outputs/./nested/.." (by decide) (by decide) (by decide)).2.1
        (by decide)).2.2⟩

/-- C8, as the code has it: the error `GetOutputsDir` returns is the error of
`MkdirAll`, passed on as it is.  It is a `mkdir` path error and carries the path at
which making the directories failed: the cleaned path, or the cleaned path cut before
one of its separators (an ancestor).  At that path, in the state left behind, either a
plain file is in the way and the error is `ENOTDIR`, or `mkdir` of that path fails with
the error number reported and there is no directory. -/
theorem GetOutputsDir_error_context (w : World) (e : PathError)
    (herr : (GetOutputsDir w).err = some e) :
    (MkdirAll w (resolvedDir w) 0o755).1 = some e ∧
    e.Op = "mkdir" ∧
    (∃ rest, (resolvedDir w).data = e.Path.data ++ rest ∧
      (rest = [] ∨ rest.head? = some '/')) ∧
    ((sysStat (GetOutputsDir w).world e.Path.data = .ok .file ∧ e.Err = .ENOTDIR) ∨
      (sysMkdir (GetOutputsDir w).world e.Path.data 0o755 = .error e.Err ∧
        ∀ s wr, sysStat (GetOutputsDir w).world e.Path.data ≠ .ok (.dir s wr))) := by
  rw [GetOutputsDir_err] at herr
  rw [GetOutputsDir_world]
  exact ⟨herr, mkdirAllLoop_error 0o755 _ w (resolvedDir w).data (Nat.lt_succ_self _) e herr⟩

theorem GetOutputsDir_error_context_witness :
    (MkdirAll collideWorld (resolvedDir collideWorld) 0o755).1 =
      some ⟨"mkdir", "a", .ENOTDIR⟩ ∧
    ("mkdir" : String) = "mkdir" ∧
    (∃ rest, (resolvedDir collideWorld).data = ("a" : String).data ++ rest ∧
      (rest = [] ∨ rest.head? = some '/')) ∧
    ((sysStat (GetOutputsDir collideWorld).world ("a" : String).data = .ok .file ∧
        Errno.ENOTDIR = .ENOTDIR) ∨
      (sysMkdir (GetOutputsDir collideWorld).world ("a" : String).data 0o755 =
          .error .ENOTDIR ∧
        ∀ s wr, sysStat (GetOutputsDir collideWorld).world ("a" : String).data ≠
          .ok (.dir s wr))) :=
  GetOutputsDir_error_context collideWorld ⟨"mkdir", "a", .ENOTDIR⟩ (by decide)

/-- C8 as stated fails: with the plain file `a` in the way of `a/b`, the error returned
is the one of `MkdirAll`, not wrapped, and the path it carries is `a`, not the cleaned
path `a/b`. -/
theorem GetOutputsDir_error_context_counterexample :
    resolvedDir collideWorld = "a/b" ∧
    (GetOutputsDir collideWorld).err = some ⟨"mkdir", "a", .ENOTDIR⟩ ∧
    (GetOutputsDir collideWorld).err = (MkdirAll collideWorld "a/b" 0o755).1 := by
  decide

/-- C9 (no partial success): `GetOutputsDir` returns either no error, a non-empty path
and a state in which the location of that path is a directory, or an error and the
empty path. -/
theorem GetOutputsDir_no_partial_success (w : World) :
    ((GetOutputsDir w).err = none ∧ (GetOutputsDir w).dir ≠ "" ∧
      (GetOutputsDir w).world.isDir
        (locate (GetOutputsDir w).world.cwd (GetOutputsDir w).dir.data) = true) ∨
    ((GetOutputsDir w).err ≠ none ∧ (GetOutputsDir w).dir = "") := by
  by_cases hok : (GetOutputsDir w).err = none
  · left
    refine ⟨hok, ?_, ?_⟩
    · rw [GetOutputsDir_dir_ok w hok]; exact Clean_ne_empty _
    · rw [GetOutputsDir_dir_ok w hok]; exact GetOutputsDir_isDir w hok
  · right
    exact ⟨hok, GetOutputsDir_dir_err w hok⟩

/-- C10, as the code has it: `GetOutputsDir` leaves every existing entry as it is, and
every entry that is new afterwards is a directory at the location of the cleaned path
or at an ancestor of it; the environment and the working directory are unchanged. -/
theorem GetOutputsDir_frame (w : World) :
    (∀ key n, w.node key = some n → (GetOutputsDir w).world.node key = some n) ∧
    (∀ key n, w.node key = none → (GetOutputsDir w).world.node key = some n →
      n.IsDir = true ∧ key <+: locate w.cwd (resolvedDir w).data) ∧
    (GetOutputsDir w).world.env = w.env ∧ (GetOutputsDir w).world.cwd = w.cwd := by
  have hmade := GetOutputsDir_made w
  have hext := hmade.extends
  refine ⟨hext.2.2.2, ?_, hext.2.1, hext.1⟩
  intro key n h0 h1
  obtain ⟨hd, init, last, hpre, hl1, hl2, hkey⟩ := hmade.fresh key n h0 h1
  refine ⟨hd, ?_⟩
  obtain ⟨D, N, hseg, hD, hN⟩ := segs_cleanChars (rawDir w).data
  rw [resolvedDir_data] at hpre hkey ⊢
  rw [hseg] at hpre
  rw [hkey, locate, hseg]
  exact chain_of_clean _ D N init last hD hN hpre hl1 hl2

/-- C10 as stated fails: for the override `a/b` in a directory without `a`, the new
directory `a` does not lie in the tree rooted at the cleaned path `a/b`. -/
theorem GetOutputsDir_frame_counterexample :
    (overrideWorld "a/b").node [['t'], ['a']] = none ∧
    (GetOutputsDir (overrideWorld "a/b")).world.node [['t'], ['a']] =
      some (.dir true true) ∧
    locate (overrideWorld "a/b").cwd (resolvedDir (overrideWorld "a/b")).data =
      [['t'], ['a'], ['b']] ∧
    ¬ ([['t'], ['a'], ['b']] <+: [['t'], ['a']]) := by
  decide


end outputdir
